import Mathlib

/-!
# sway-freezer: a verification development

Shallow embedding of the process harvester (`pstree.c`), the suspension
engine (`freezer.c`) and the region allocator (`arena.h`), followed by the
theorems proved about them.
-/

namespace SwayFreezer

/-! ## Process harvester (`pstree.c`) -/

/-- Process ids. `pid_t` is a signed integer in C; ids are used as opaque keys. -/
abbrev pid_t := Int

/-- The `GHashTable` of `get_pid_relationships`: keys are parent ids, values are
`GList`s of child ids. A `GList` is a Lean list and the `NULL` list is `[]`. -/
abbrev PidMap := List (pid_t × List pid_t)

/-- Source `g_hash_table_lookup`: the value stored under `key`, `NULL` (`[]`) when absent. -/
def g_hash_table_lookup : PidMap → pid_t → List pid_t
  | [], _ => []
  | (k, v) :: rest, key => if k = key then v else g_hash_table_lookup rest key

/-- Source `g_hash_table_insert`: replaces the value of an existing key, adds the entry otherwise. -/
def g_hash_table_insert : PidMap → pid_t → List pid_t → PidMap
  | [], key, v => [(key, v)]
  | (k, w) :: rest, key, v =>
    if k = key then (k, v) :: rest else (k, w) :: g_hash_table_insert rest key v

/-- Source `g_list_append` on a non-empty list that is stored in the table: the new cell is
linked behind the last one, the head pointer held by the table stays the same, so the
table entry now shows the longer list. -/
def g_list_append_stored : PidMap → pid_t → pid_t → PidMap
  | [], _, _ => []
  | (k, w) :: rest, key, x =>
    if k = key then (k, w ++ [x]) :: rest else (k, w) :: g_list_append_stored rest key x

/-- Lines 168-175 of `get_pid_relationships`: record `pid` as a child of `ppid`,
unless `ppid` is zero (kernel threads). -/
def record_relationship (pidmap : PidMap) (ppid pid : pid_t) : PidMap :=
  if ppid ≠ 0 then
    match g_hash_table_lookup pidmap ppid with
    | [] => g_hash_table_insert pidmap ppid [pid]
    | _ :: _ => g_list_append_stored pidmap ppid pid
  else pidmap

/-- The adjacency map built from a parent table: the entries `(pid, ppid)` are the
successfully read units, in the order their completions are handled. -/
def pidmap_of_table (tbl : List (pid_t × pid_t)) : PidMap :=
  tbl.foldl (fun m e => record_relationship m e.2 e.1) []

/-- Source `g_queue_push_head`; a `GQueue` is the list of its elements, head first. -/
def g_queue_push_head {α : Type} (queue : List α) (x : α) : List α := x :: queue

/-- Source `g_queue_pop_tail`: the last element and the remaining queue, `none` when empty. -/
def g_queue_pop_tail {α : Type} (queue : List α) : Option (α × List α) :=
  match queue.getLast? with
  | none => none
  | some x => some (x, queue.dropLast)

/-- The `while (!g_queue_is_empty(queue))` loop of `get_pid_children`; `none` when the
fuel runs out before the queue is empty. -/
def get_pid_children_loop (pidmap : PidMap) : Nat → List pid_t → List pid_t → Option (List pid_t)
  | 0, queue, result => if queue = [] then some result else none
  | fuel + 1, queue, result =>
    match g_queue_pop_tail queue with
    | none => some result
    | some (p, queue) =>
      let children := g_hash_table_lookup pidmap p
      get_pid_children_loop pidmap fuel (children.foldl g_queue_push_head queue) (result ++ [p])

/-- Source `get_pid_children`, given what `get_pid_relationships` returned (`none` is `NULL`).
The outer option is `none` when the traversal does not finish within the fuel; the
inner one is the returned pointer (`none` is `NULL`), the list being the contents of
the returned array before its zero terminator. -/
def get_pid_children (fuel : Nat) (pidmap : Option PidMap) (pid : pid_t) :
    Option (Option (List pid_t)) :=
  match pidmap with
  | none => some none
  | some m =>
    match get_pid_children_loop m fuel (g_queue_push_head [] pid) [] with
    | none => none
    | some result => some (some result)

/-! ### Specification vocabulary for the traversal -/

/-- The child relation of an adjacency map: `c` is in the child list of `p`. -/
def IsChild (m : PidMap) (p c : pid_t) : Prop := c ∈ g_hash_table_lookup m p

/-- Pids reachable from `p` through child links (`p` included). -/
def Descendant (m : PidMap) (p x : pid_t) : Prop := Relation.ReflTransGen (IsChild m) p x

/-- The traversal on the queue read from its tail: `rq` is the queue reversed. -/
def bfs (m : PidMap) : Nat → List pid_t → List pid_t → Option (List pid_t)
  | 0, rq, result => if rq = [] then some result else none
  | fuel + 1, rq, result =>
    match rq with
    | [] => some result
    | p :: rest => bfs m fuel (rest ++ g_hash_table_lookup m p) (result ++ [p])

/-- Total number of traversal steps needed for a queue: `Cost m q n` holds when the
forest hanging below the queued pids has `n` nodes, counted with multiplicity. -/
inductive Cost (m : PidMap) : List pid_t → Nat → Prop
  | nil : Cost m [] 0
  | cons (p : pid_t) (ps : List pid_t) (a b : Nat) :
      Cost m (g_hash_table_lookup m p) a → Cost m ps b → Cost m (p :: ps) (a + b + 1)

/-! ### Draining the completion queue (`get_pid_relationships`) -/

/-- C `isspace` in the "C" locale: space, `\t`, `\n`, `\v`, `\f`, `\r`. -/
def isspace (c : Char) : Bool :=
  c = ' ' || (9 ≤ c.toNat && c.toNat ≤ 13)

/-- The digit loop of `strtoul` in base 10: accumulated value and the unread rest. -/
def strtoul_digits : List Char → Nat → Nat × List Char
  | [], acc => (acc, [])
  | c :: rest, acc =>
    if c.isDigit then strtoul_digits rest (10 * acc + (c.toNat - 48)) else (acc, c :: rest)

/-- Source `strtoul(nptr, &endptr, 10)` on a NUL-terminated string given as the characters
before the NUL: skips white space, takes an optional sign, reads digits. Returns the
`unsigned long` value (saturated at `ULONG_MAX` on overflow, negated modulo `2^64`
after a minus sign) and `endptr`; with no digits the value is 0 and `endptr = nptr`. -/
def strtoul (nptr : List Char) : Nat × List Char :=
  let t := nptr.dropWhile isspace
  let signed : Bool × List Char :=
    match t with
    | '-' :: r => (true, r)
    | '+' :: r => (false, r)
    | _ => (false, t)
  match signed.2 with
  | [] => (0, nptr)
  | c :: _ =>
    if c.isDigit then
      let d := strtoul_digits signed.2 0
      if d.1 ≥ 2 ^ 64 then (2 ^ 64 - 1, d.2)
      else if signed.1 then ((2 ^ 64 - d.1) % 2 ^ 64, d.2)
      else (d.1, d.2)
    else (0, nptr)

/-- Conversion of an `unsigned long` to `pid_t` (a 32-bit signed `int`). -/
def to_pid_t (v : Nat) : pid_t :=
  if v % 2 ^ 32 < 2 ^ 31 then (v % 2 ^ 32 : Nat) else (v % 2 ^ 32 : Nat) - 2 ^ 32

/-- Source `strstr`: the suffix of `haystack` that starts at the first occurrence of `needle`. -/
def strstr : List Char → List Char → Option (List Char)
  | [], needle => if needle = [] then some [] else none
  | c :: rest, needle =>
    if needle.isPrefixOf (c :: rest) then some (c :: rest) else strstr rest needle

/-- Source `parse_ppid`; `none` when one of its assertions fails. -/
def parse_ppid (buf : List Char) : Option pid_t :=
  match strstr buf ['P', 'P', 'i', 'd', ':'] with
  | none => none
  | some x =>
    let x := (x.drop 5).dropWhile (fun c => c = ' ')
    if x = [] then none
    else
      let r := strtoul x
      match r.2 with
      | [] => some (to_pid_t r.1)
      | e :: _ => if e.toNat = 10 then some (to_pid_t r.1) else none

/-- Source `struct submit_data`: the pid of the unit and its read buffer (as the C string it
holds); the path is only used when the unit is submitted. -/
structure submit_data where
  pid : pid_t
  buf : List Char

/-- A completion queue entry: its result and the user data of its submission, which
is set for the read of a unit and `NULL` for its open and its close. -/
structure io_uring_cqe where
  res : Int
  data : Option submit_data

/-- The errno value `ENOENT`. -/
def ENOENT : Int := 2

/-- The errno value `ESRCH`. -/
def ESRCH : Int := 3

/-- The errno value `ECANCELED`. -/
def ECANCELED : Int := 125

/-- What the ring hands to one pass of the `while (pending)` loop: either the non-empty
batch that `io_uring_peek_batch_cqe` returned, or, when the batch was empty, the return
value of `io_uring_wait_cqe_nr` and the entry it stored in `cqes[0]`. -/
inductive Completion where
  | peeked (first : io_uring_cqe) (more : List io_uring_cqe)
  | waited (ret : Int) (cqe : io_uring_cqe)

/-- How `get_pid_relationships` ends: it returns the map, it returns `NULL`, an
assertion aborts the process, or it waits for a completion that never comes. -/
inductive Harvest where
  | map (pidmap : PidMap)
  | null
  | aborted
  | blocked
  deriving DecidableEq

/-- The body of the `for` loop over a batch (lines 155-180) for one entry: the new map
and pending counter, or the way the function ends. -/
def handle_cqe (pidmap : PidMap) (pending : Int) (cqe : io_uring_cqe) :
    Except Harvest (PidMap × Int) :=
  if cqe.res < 0 then
    if cqe.res ≠ -ENOENT ∧ cqe.res ≠ -ECANCELED ∧ cqe.res ≠ -ESRCH then .error Harvest.null
    else .ok (pidmap, pending - 1)
  else
    match cqe.data with
    | some data =>
      if cqe.res > 0 then
        match parse_ppid data.buf with
        | none => .error Harvest.aborted
        | some ppid => .ok (record_relationship pidmap ppid data.pid, pending - 1)
      else .error Harvest.aborted
    | none => .ok (pidmap, pending)

/-- The `for (int i = 0; i < n_cqes; i++)` loop over one batch. -/
def handle_batch (pidmap : PidMap) (pending : Int) :
    List io_uring_cqe → Except Harvest (PidMap × Int)
  | [] => .ok (pidmap, pending)
  | cqe :: rest =>
    match handle_cqe pidmap pending cqe with
    | .error e => .error e
    | .ok st => handle_batch st.1 st.2 rest

/-- The `while (pending)` loop (lines 143-182) over what the ring delivers. -/
def drain_loop : List Completion → PidMap → Int → Harvest
  | [], pidmap, pending => if pending = 0 then Harvest.map pidmap else Harvest.blocked
  | c :: rest, pidmap, pending =>
    if pending = 0 then Harvest.map pidmap
    else
      match c with
      | .peeked first more =>
        match handle_batch pidmap pending (first :: more) with
        | .error e => e
        | .ok st => drain_loop rest st.1 st.2
      | .waited ret cqe =>
        if ret < 0 then Harvest.null
        else
          match handle_batch pidmap pending [cqe] with
          | .error e => e
          | .ok st => drain_loop rest st.1 st.2

/-- Source `get_pid_relationships`: `setup_ok` says that `/proc` was opened and scanned and the
ring was created, filled, registered and submitted (any failure there returns `NULL`);
`count` is the number of candidate pids. -/
def get_pid_relationships (setup_ok : Bool) (count : Nat) (completions : List Completion) :
    Harvest :=
  if setup_ok then drain_loop completions [] count else Harvest.null

/-- All completion queue entries of a delivery sequence, in order. -/
def Completion.cqes : Completion → List io_uring_cqe
  | .peeked first more => first :: more
  | .waited _ cqe => [cqe]

/-- The status buffer `PPid:<tab>1<newline>` prefixed by a name line. -/
def status_with_parent_1 : List Char :=
  ['N', 'a', 'm', 'e', ':', Char.ofNat 9, 's', 'h', Char.ofNat 10,
   'P', 'P', 'i', 'd', ':', Char.ofNat 9, '1', Char.ofNat 10]

/-- Two candidates, 10 and 20. Pid 10 exits before its status file is opened: its open
fails with `-ENOENT` and its linked read is cancelled. Pid 20 is read successfully. -/
def vanished_first : List Completion :=
  [ .peeked ⟨-ENOENT, none⟩ [⟨-ECANCELED, some ⟨10, []⟩⟩],
    .peeked ⟨0, none⟩ [⟨17, some ⟨20, status_with_parent_1⟩⟩],
    .peeked ⟨0, none⟩ [] ]

/-! ## Suspension engine (`freezer.c`) -/

/-- JSON values as the jansson library holds them (reals are not used here). -/
inductive json_t where
  | null
  | boolean (b : Bool)
  | integer (i : Int)
  | string (s : String)
  | array (items : List json_t)
  | object (members : List (String × json_t))

/-- The value of the first member called `name`. -/
def json_members_get : List (String × json_t) → String → Option json_t
  | [], _ => none
  | (k, v) :: rest, name => if k = name then some v else json_members_get rest name

/-- Source `json_object_get`: `NULL` (`none`) when `h` is not an object or has no such member. -/
def json_object_get (h : json_t) (name : String) : Option json_t :=
  match h with
  | .object members => json_members_get members name
  | _ => none

/-- Conversion of a `json_int_t` (`long long`) to `int`. -/
def to_int32 (i : Int) : Int := (i + 2 ^ 31) % 2 ^ 32 - 2 ^ 31

/-- Source `json_string_or_die`; `.error ()` stands for a call of `die`, `none` for `NULL`. -/
def json_string_or_die (h : json_t) (name : String) (nullable : Bool) :
    Except Unit (Option String) :=
  match json_object_get h name with
  | none => .error ()
  | some (.string s) => .ok (some s)
  | some .null => if nullable then .ok none else .error ()
  | some _ => .error ()

/-- Source `json_object_or_die`. -/
def json_object_or_die (h : json_t) (name : String) : Except Unit json_t :=
  match json_object_get h name with
  | some (.object members) => .ok (.object members)
  | _ => .error ()

/-- Source `json_int_or_die`. -/
def json_int_or_die (h : json_t) (name : String) : Except Unit Int :=
  match json_object_get h name with
  | some (.integer i) => .ok (to_int32 i)
  | _ => .error ()

/-- Source `json_bool_or_die`. -/
def json_bool_or_die (h : json_t) (name : String) : Except Unit Bool :=
  match json_object_get h name with
  | some (.boolean b) => .ok b
  | _ => .error ()

/-- Source `get_focused_app`: the returned app id (`none` is `NULL`) and the value left in
`*pid`, which the caller initialised to 0. -/
def get_focused_app (root : json_t) : Except Unit (Option String × pid_t) :=
  match json_string_or_die root "change" false with
  | .error e => .error e
  | .ok change =>
    if change ≠ some "focus" then .ok (none, 0)
    else
      match json_object_or_die root "container" with
      | .error e => .error e
      | .ok container_ptr =>
        match json_int_or_die container_ptr "pid" with
        | .error e => .error e
        | .ok pid =>
          match json_string_or_die container_ptr "app_id" true with
          | .error e => .error e
          | .ok app_id => .ok (app_id, pid)

/-- Source `get_sway_tree_iter`, given the parsed reply to `IPC_GET_TREE`: the iterator is its
queue of nodes, which starts with the root. -/
def get_sway_tree_iter (root : json_t) : List json_t := g_queue_push_head [] root

/-- Source `sway_tree_iter_next`: `.ok none` is the `NULL` returned on an empty queue. -/
def sway_tree_iter_next (queue : List json_t) : Except Unit (Option (json_t × List json_t)) :=
  match g_queue_pop_tail queue with
  | none => .ok none
  | some (node, queue) =>
    match json_object_get node "nodes" with
    | some (.array children) => .ok (some (node, children.foldl g_queue_push_head queue))
    | _ => .error ()

/-- Source `struct window_info`. -/
structure window_info where
  app_id : String
  pid : pid_t
  focused : Bool
  deriving DecidableEq

/-- Source `iter_sway_apps` (called with a non-`NULL` `win` everywhere): the next window and the
iterator after it, `.ok none` for `false`; the outer `none` when the fuel of its
`while (true)` loop runs out. -/
def iter_sway_apps : Nat → List json_t →
    Option (Except Unit (Option (window_info × List json_t)))
  | 0, _ => none
  | fuel + 1, it =>
    match sway_tree_iter_next it with
    | .error e => some (.error e)
    | .ok none => some (.ok none)
    | .ok (some (node, it)) =>
      match json_object_get node "app_id" with
      | none => iter_sway_apps fuel it
      | some .null => iter_sway_apps fuel it
      | some (.string app_id) =>
        match json_int_or_die node "pid" with
        | .error e => some (.error e)
        | .ok pid =>
          match json_bool_or_die node "focused" with
          | .error e => some (.error e)
          | .ok focused => some (.ok (some (⟨app_id, pid, focused⟩, it)))
      | some _ => some (.error ())

/-- Source `struct context`: the tracked names (`proc_names`, `proc_count` is their number)
and the set `suspended_procs`. -/
structure context where
  proc_names : List String
  suspended_procs : List String
  deriving DecidableEq

/-- The signal number of `SIGCONT`. -/
def SIGCONT : Int := 18

/-- The signal number of `SIGSTOP`. -/
def SIGSTOP : Int := 19

/-- The program state together with what it has done to the outside: the context, the
debounce timer (`timer_armed`: an expiry is scheduled; `timer_ticks`: expirations not
yet read) and the log of `kill(pid, signum)` calls, oldest first. -/
structure Machine where
  ctx : context
  timer_armed : Bool
  timer_ticks : Nat
  kills : List (pid_t × Int)
  deriving DecidableEq

/-- How a piece of the program ends: normally, by `die` (which exits), or blocked for
ever in a system call. Each carries the state reached. -/
inductive Outcome (σ : Type) where
  | ok (s : σ)
  | died (s : σ)
  | hung (s : σ)
  deriving DecidableEq

/-- The state an outcome carries. -/
def Outcome.state {σ : Type} : Outcome σ → σ
  | .ok s => s
  | .died s => s
  | .hung s => s

/-- Source `start_timer`: `timerfd_settime` with a value of `DELAY_S` seconds arms the timer
and discards expirations that were not read. -/
def start_timer (m : Machine) : Machine := { m with timer_armed := true, timer_ticks := 0 }

/-- Source `cancel_timer`: `timerfd_settime` with a zero value disarms the timer and discards
expirations that were not read. -/
def cancel_timer (m : Machine) : Machine := { m with timer_armed := false, timer_ticks := 0 }

/-- Source `should_suspend`. -/
def should_suspend (ctx : context) (app_id : String) : Bool :=
  ctx.proc_names.any (fun name => name = app_id)

/-- Source `is_suspended`. -/
def is_suspended (ctx : context) (app_id : String) : Bool :=
  ctx.suspended_procs.any (fun name => name = app_id)

/-- Source `kill_all`: `harvest pid` is what `get_pid_children(pid)` returns (`none` is
`NULL`; the process table is taken not to change during one pass over the windows);
the returned array is walked up to its first zero entry, and every `kill` call is
logged whether or not it succeeds. -/
def kill_all (harvest : pid_t → Option (List pid_t)) (m : Machine) (pid : pid_t)
    (signum : Int) : Bool × Machine :=
  match harvest pid with
  | none => (false, m)
  | some pids =>
    let sent := (pids.takeWhile (fun p => p ≠ 0)).map (fun p => (p, signum))
    (true, { m with kills := m.kills ++ sent })

/-- Source `resume_app`. -/
def resume_app (harvest : pid_t → Option (List pid_t)) (m : Machine) (app_id : String)
    (pid : pid_t) : Bool × Machine :=
  match kill_all harvest m pid SIGCONT with
  | (false, m) => (false, m)
  | (true, m) =>
    let set := m.ctx.suspended_procs.filter (fun name => name ≠ app_id)
    (true, { m with ctx := { m.ctx with suspended_procs := set } })

/-- Source `suspend_app`. -/
def suspend_app (harvest : pid_t → Option (List pid_t)) (m : Machine) (app_id : String)
    (pid : pid_t) : Bool × Machine :=
  match kill_all harvest m pid SIGSTOP with
  | (false, m) => (false, m)
  | (true, m) =>
    let set :=
      if m.ctx.suspended_procs.any (fun name => name = app_id) then m.ctx.suspended_procs
      else m.ctx.suspended_procs ++ [app_id]
    (true, { m with ctx := { m.ctx with suspended_procs := set } })

/-- The loop `while (iter_sway_apps(it, &win)) body` that `resume_all_apps` and
`suspend_all_apps` share; `none` when the fuel runs out. -/
def while_iter_sway_apps {σ : Type} (body : σ → window_info → σ) :
    Nat → σ → List json_t → Option (Outcome σ)
  | 0, _, _ => none
  | fuel + 1, s, it =>
    match iter_sway_apps (fuel + 1) it with
    | none => none
    | some (.error _) => some (.died s)
    | some (.ok none) => some (.ok s)
    | some (.ok (some (win, it))) => while_iter_sway_apps body fuel (body s win) it

/-- The body of the loop of `resume_all_apps`. -/
def resume_window (harvest : pid_t → Option (List pid_t)) (m : Machine)
    (win : window_info) : Machine :=
  if should_suspend m.ctx win.app_id then (resume_app harvest m win.app_id win.pid).2 else m

/-- Source `resume_all_apps` on the tree that the compositor returns. -/
def resume_all_apps (harvest : pid_t → Option (List pid_t)) (fuel : Nat) (m : Machine)
    (tree : json_t) : Option (Outcome Machine) :=
  while_iter_sway_apps (resume_window harvest) fuel m (get_sway_tree_iter tree)

/-- The body of the loop of `suspend_all_apps`. -/
def suspend_window (harvest : pid_t → Option (List pid_t)) (m : Machine)
    (win : window_info) : Machine :=
  if !win.focused && should_suspend m.ctx win.app_id && !is_suspended m.ctx win.app_id then
    (suspend_app harvest m win.app_id win.pid).2
  else m

/-- Source `suspend_all_apps` on the tree that the compositor returns. -/
def suspend_all_apps (harvest : pid_t → Option (List pid_t)) (fuel : Nat) (m : Machine)
    (tree : json_t) : Option (Outcome Machine) :=
  while_iter_sway_apps (suspend_window harvest) fuel m (get_sway_tree_iter tree)

/-- Source `atexit_handler`. -/
def atexit_handler (harvest : pid_t → Option (List pid_t)) (fuel : Nat) (m : Machine)
    (tree : json_t) : Option (Outcome Machine) :=
  resume_all_apps harvest fuel m tree

/-- The block of `main` run when the event channel is readable (lines 323-338), for
the event `resp` that `read_window_event` returned. -/
def handle_window_event (harvest : pid_t → Option (List pid_t)) (m : Machine)
    (resp : json_t) : Outcome Machine :=
  match get_focused_app resp with
  | .error _ => .died m
  | .ok (none, _) => .ok m
  | .ok (some app_id, pid) =>
    if should_suspend m.ctx app_id then
      let m := cancel_timer m
      if is_suspended m.ctx app_id then .ok (resume_app harvest m app_id pid).2 else .ok m
    else if m.ctx.proc_names.length ≠ m.ctx.suspended_procs.length then .ok (start_timer m)
    else .ok m

/-- What the outside supplies to one iteration of the loop of `main`: the event read
when the channel is readable (`none`: not readable; `some none`: `read_window_event`
dies), whether the timer, if armed, expires before `poll` returns, the window tree the
compositor would report and the answers of `get_pid_children`. -/
structure Poll where
  event : Option (Option json_t)
  timer_fires : Bool
  tree : json_t
  harvest : pid_t → Option (List pid_t)

/-- One iteration of the `while (true)` loop of `main` (lines 311-346). `poll` reports
the timer readable when it holds an unread expiration; `read` on it returns when there
is one, waits for the expiry when the timer is armed, and blocks for ever when it is
disarmed. -/
def main_loop_step (fuel : Nat) (m : Machine) (p : Poll) : Option (Outcome Machine) :=
  let m : Machine :=
    if p.timer_fires && m.timer_armed then
      { m with timer_armed := false, timer_ticks := m.timer_ticks + 1 }
    else m
  let revents1 : Bool := decide (0 < m.timer_ticks)
  let after_event : Outcome Machine :=
    match p.event with
    | none => .ok m
    | some none => .died m
    | some (some resp) => handle_window_event p.harvest m resp
  match after_event with
  | .ok m =>
    if revents1 then
      if 0 < m.timer_ticks then
        suspend_all_apps p.harvest fuel { m with timer_ticks := 0 } p.tree
      else if m.timer_armed then
        suspend_all_apps p.harvest fuel { m with timer_armed := false } p.tree
      else some (.hung m)
    else some (.ok m)
  | o => some o

/-- The loop of `main` over a sequence of iterations; it stops at the first one that
does not end normally. -/
def main_loop (fuel : Nat) : Machine → List Poll → Option (Outcome Machine)
  | m, [] => some (.ok m)
  | m, p :: ps =>
    match main_loop_step fuel m p with
    | some (.ok m) => main_loop fuel m ps
    | r => r

/-- The windows that successive calls of `iter_sway_apps` yield. -/
def sway_windows (fuel : Nat) (it : List json_t) : Option (Outcome (List window_info)) :=
  while_iter_sway_apps (fun ws win => ws ++ [win]) fuel [] it

/-- The `kill` calls of a log that carry the stop signal. -/
def stops (kills : List (pid_t × Int)) : List (pid_t × Int) :=
  kills.filter (fun k => k.2 = SIGSTOP)

/-- Apply a function to the state an outcome carries. -/
def Outcome.map {σ τ : Type} (f : σ → τ) : Outcome σ → Outcome τ
  | .ok s => .ok (f s)
  | .died s => .died (f s)
  | .hung s => .hung (f s)

/-- The `kill` calls that `kill_all(pid, signum)` makes. -/
def sent_by (harvest : pid_t → Option (List pid_t)) (pid : pid_t) (signum : Int) :
    List (pid_t × Int) :=
  match harvest pid with
  | none => []
  | some pids => (pids.takeWhile (fun p => p ≠ 0)).map (fun p => (p, signum))

mutual
/-- Number of constructors of a JSON value. -/
def json_weight : json_t → Nat
  | .array items => 1 + json_weight_list items
  | .object members => 1 + json_weight_members members
  | _ => 1
/-- Total weight of a list of JSON values. -/
def json_weight_list : List json_t → Nat
  | [] => 0
  | x :: xs => json_weight x + json_weight_list xs
/-- Total weight of the values of a member list. -/
def json_weight_members : List (String × json_t) → Nat
  | [] => 0
  | (_, v) :: ms => json_weight v + json_weight_members ms
end

/-- Size of the part of the tree that an iterator still has to walk. -/
def iter_weight (it : List json_t) : Nat := json_weight_list it

/-- A window of a tracked application `app`, not focused, owned by pid 10, below the
root of the tree. -/
def tree_one_window : json_t :=
  .object [("nodes", .array [
    .object [("app_id", .string "app"), ("pid", .integer 10), ("focused", .boolean false),
      ("nodes", .array [])]])]

/-- The application `app` is tracked and suspended. -/
def machine_app_suspended : Machine :=
  { ctx := { proc_names := ["app"], suspended_procs := ["app"] },
    timer_armed := false, timer_ticks := 0, kills := [] }

/-- Two windows of the tracked application `app`, owned by pids 10 and 20, neither
focused. -/
def tree_two_windows : json_t :=
  .object [("nodes", .array [
    .object [("app_id", .string "app"), ("pid", .integer 10), ("focused", .boolean false),
      ("nodes", .array [])],
    .object [("app_id", .string "app"), ("pid", .integer 20), ("focused", .boolean false),
      ("nodes", .array [])]])]

/-- The application `app` is tracked and running, the timer is not armed. -/
def machine_app_running : Machine :=
  { ctx := { proc_names := ["app"], suspended_procs := [] },
    timer_armed := false, timer_ticks := 0, kills := [] }

/-- The state after `suspend_all_apps` on `tree_two_windows`: pid 10 was stopped. -/
def machine_app_stopped_10 : Machine :=
  { ctx := { proc_names := ["app"], suspended_procs := ["app"] },
    timer_armed := false, timer_ticks := 0, kills := [(10, SIGSTOP)] }

/-- A focus event that names the application `app` and the pid 20. -/
def focus_event_app_20 : json_t :=
  .object [("change", .string "focus"),
    ("container", .object [("app_id", .string "app"), ("pid", .integer 20)])]

/-- Every pid is its own and only descendant. -/
def harvest_self : pid_t → Option (List pid_t) := fun p => some [p]

/-- The application `app` has an unfocused and a focused window, both owned by pid 10;
the application `other` has one unfocused window owned by pid 20. -/
def tree_focused_app : json_t :=
  .object [("nodes", .array [
    .object [("app_id", .string "app"), ("pid", .integer 10), ("focused", .boolean false),
      ("nodes", .array [])],
    .object [("app_id", .string "app"), ("pid", .integer 10), ("focused", .boolean true),
      ("nodes", .array [])],
    .object [("app_id", .string "other"), ("pid", .integer 20), ("focused", .boolean false),
      ("nodes", .array [])]])]

/-- Both `app` and `other` are tracked and running. -/
def machine_two_apps : Machine :=
  { ctx := { proc_names := ["app", "other"], suspended_procs := [] },
    timer_armed := false, timer_ticks := 0, kills := [] }

/-- The harvest succeeds for pid 10 and fails for every other pid. -/
def harvest_only_10 : pid_t → Option (List pid_t) := fun p => if p = 10 then some [10] else none

/-- The event of an iteration makes `main` call `start_timer`: it is a focus event that
names an application that is not tracked, while the number of tracked names differs from
the size of the suspended set. -/
def starts_timer (m : Machine) (p : Poll) : Bool :=
  match p.event with
  | some (some resp) =>
    match get_focused_app resp with
    | .ok (some app_id, _) =>
      !should_suspend m.ctx app_id &&
        decide (m.ctx.proc_names.length ≠ m.ctx.suspended_procs.length)
    | _ => false
  | _ => false

/-- No iteration of a run of the loop of `main` from `m` over `ps` calls `start_timer`. -/
def never_starts_timer (fuel : Nat) : Machine → List Poll → Prop
  | _, [] => True
  | m, p :: ps =>
    starts_timer m p = false ∧
      ∀ m2, main_loop_step fuel m p = some (.ok m2) → never_starts_timer fuel m2 ps

/-- The application `app` is tracked and running and the debounce timer is armed. -/
def machine_timer_armed : Machine :=
  { ctx := { proc_names := ["app"], suspended_procs := [] },
    timer_armed := true, timer_ticks := 0, kills := [] }

/-- An iteration in which the focus event for `app` is read while the timer expires. -/
def poll_refocus_and_expiry : Poll :=
  { event := some (some focus_event_app_20), timer_fires := true,
    tree := tree_two_windows, harvest := harvest_self }

/-! ## Region allocator (`arena.h`) -/

/-- Arithmetic on `size_t` is modulo `2^64`. -/
def SIZE_MOD : Nat := 2 ^ 64

/-- The value of `sizeof(uintptr_t)`. -/
def WORD : Nat := 8

/-- The value of `sizeof(Region)`: the `next` pointer and the two `size_t` fields. -/
def REGION_HEADER : Nat := 24

/-- The macro `REGION_DEFAULT_CAPACITY`, in words. -/
def REGION_DEFAULT_CAPACITY : Nat := 8 * 1024

/-- Source `struct Region` without its payload: the high-water mark `count` and the
`capacity`, both in words. The `next` pointer is the position in the chain. -/
structure Region where
  count : Nat
  capacity : Nat
  deriving DecidableEq

/-- Source `Arena`: the chain of regions starting at `begin` (`begin` is `NULL` exactly when the
chain is empty) and `end` as an index into the chain (`none` is `NULL`). -/
structure Arena where
  regions : List Region
  last : Option Nat
  deriving DecidableEq

/-- Source `Arena_Mark`: a region (index into the chain, `none` is `NULL`) and a count. -/
structure Arena_Mark where
  region : Option Nat
  count : Nat
  deriving DecidableEq

/-- A block of memory: the payload of a region of the chain, or memory that does not
belong to the arena. -/
inductive Block where
  | region (index : Nat)
  | other (id : Nat)
  deriving DecidableEq

/-- A pointer: a block and a byte offset in it. -/
structure Ptr where
  block : Block
  offset : Nat
  deriving DecidableEq

/-- The arena that `Arena a = {0}` declares. -/
def arena_empty : Arena := { regions := [], last := none }

/-- Source `new_region`: `malloc` is taken to succeed. The result is `none` when the byte size
`sizeof(Region) + sizeof(uintptr_t) * capacity` wraps around, in which case the block
obtained is smaller than the region claims to be. -/
def new_region (capacity : Nat) : Option Region :=
  if REGION_HEADER + WORD * capacity < SIZE_MOD then some { count := 0, capacity := capacity }
  else none

/-- The capacity chosen for a new region in `arena_alloc`. -/
def region_capacity_for (size : Nat) : Nat :=
  if REGION_DEFAULT_CAPACITY < size then size else REGION_DEFAULT_CAPACITY

/-- The loop `while (a->end->count + size > a->end->capacity && a->end->next != NULL)`
of `arena_alloc`, run on the chain from `a->end` on; `e` is the index of its first
region. Returns the index of the new `a->end`. -/
def arena_alloc_skip (size : Nat) : List Region → Nat → Nat
  | [], e => e
  | [_], e => e
  | r :: r2 :: rest, e =>
    if (r.count + size) % SIZE_MOD > r.capacity then arena_alloc_skip size (r2 :: rest) (e + 1)
    else e

/-- Source `arena_alloc`: the pointer returned and the arena afterwards; `none` when an
assertion fails, `a->end` does not point into the chain or `new_region` gives `none`. -/
def arena_alloc (a : Arena) (size_bytes : Nat) : Option (Ptr × Arena) :=
  let size := ((size_bytes + WORD - 1) % SIZE_MOD) / WORD
  let started : Option Arena :=
    match a.last with
    | none =>
      if a.regions = [] then
        match new_region (region_capacity_for size) with
        | none => none
        | some r => some { regions := [r], last := some 0 }
      else none
    | some _ => some a
  match started with
  | none => none
  | some a =>
    match a.last with
    | none => none
    | some e =>
      let e := arena_alloc_skip size (a.regions.drop e) e
      match a.regions[e]? with
      | none => none
      | some r =>
        if (r.count + size) % SIZE_MOD > r.capacity then
          if e + 1 = a.regions.length then
            match new_region (region_capacity_for size) with
            | none => none
            | some r =>
              some (⟨.region (e + 1), WORD * r.count⟩,
                { regions := a.regions ++ [{ r with count := (r.count + size) % SIZE_MOD }],
                  last := some (e + 1) })
          else none
        else
          some (⟨.region e, WORD * r.count⟩,
            { regions := a.regions.set e { r with count := (r.count + size) % SIZE_MOD },
              last := some e })

/-- Source `arena_snapshot`; `none` when its assertion fails or `a->end` does not point into
the chain. -/
def arena_snapshot (a : Arena) : Option Arena_Mark :=
  match a.last with
  | none => if a.regions = [] then some { region := none, count := 0 } else none
  | some e =>
    match a.regions[e]? with
    | none => none
    | some r => some { region := some e, count := r.count }

/-- Source `arena_reset`. -/
def arena_reset (a : Arena) : Arena :=
  { regions := a.regions.map (fun r => { r with count := 0 }),
    last := if a.regions = [] then none else some 0 }

/-- The stores of `arena_rewind` on the chain: the region at index `i` gets the count of
the mark, every region after it gets count 0. -/
def arena_rewind_regions : List Region → Nat → Nat → List Region
  | [], _, _ => []
  | r :: rest, 0, count => { r with count := count } :: rest.map (fun r => { r with count := 0 })
  | r :: rest, i + 1, count => r :: arena_rewind_regions rest i count

/-- Source `arena_rewind`; `none` when the region of the mark is not in the chain. -/
def arena_rewind (a : Arena) (m : Arena_Mark) : Option Arena :=
  match m.region with
  | none => some (arena_reset a)
  | some i =>
    if i < a.regions.length then
      some { regions := arena_rewind_regions a.regions i m.count, last := some i }
    else none

/-- Memory: the byte stored at each offset of each block. -/
abbrev Mem := Block → Nat → Nat

/-- The store `p[i] = v`. -/
def Mem.store (mem : Mem) (p : Ptr) (i : Nat) (v : Nat) : Mem :=
  fun b off => if b = p.block ∧ off = p.offset + i then v else mem b off

/-- The load `p[i]`. -/
def Mem.load (mem : Mem) (p : Ptr) (i : Nat) : Nat := mem p.block (p.offset + i)

/-- The copy loop of `arena_realloc`, `for (i = from; i < from + n; ++i)
newptr_char[i] = oldptr_char[i]`. -/
def realloc_copy (newptr oldptr : Ptr) : Nat → Nat → Mem → Mem
  | 0, _, mem => mem
  | n + 1, i, mem => realloc_copy newptr oldptr n (i + 1) (mem.store newptr i (mem.load oldptr i))

/-- Source `arena_realloc`: the pointer returned, the arena and the memory afterwards. -/
def arena_realloc (a : Arena) (mem : Mem) (oldptr : Ptr) (oldsz newsz : Nat) :
    Option (Ptr × Arena × Mem) :=
  if newsz ≤ oldsz then some (oldptr, a, mem)
  else
    match arena_alloc a newsz with
    | none => none
    | some (newptr, a) => some (newptr, a, realloc_copy newptr oldptr oldsz 0 mem)

/-- A sequence of `arena_alloc` calls: the pointers returned, in order, and the arena
afterwards. -/
def arena_alloc_seq : Arena → List Nat → Option (List Ptr × Arena)
  | a, [] => some ([], a)
  | a, n :: ns =>
    match arena_alloc a n with
    | none => none
    | some (p, a) =>
      match arena_alloc_seq a ns with
      | none => none
      | some (ps, a) => some (p :: ps, a)

/-- The states an arena goes through, with the marks taken so far: from the empty
arena by `arena_alloc`, `arena_snapshot`, `arena_reset` and `arena_rewind` to a mark
that `arena_snapshot` returned earlier. -/
inductive ArenaReach : Arena → List Arena_Mark → Prop
  | empty : ArenaReach arena_empty []
  | alloc (a : Arena) (ms : List Arena_Mark) (n : Nat) (p : Ptr) (a2 : Arena) :
      ArenaReach a ms → arena_alloc a n = some (p, a2) → ArenaReach a2 ms
  | snapshot (a : Arena) (ms : List Arena_Mark) (m : Arena_Mark) :
      ArenaReach a ms → arena_snapshot a = some m → ArenaReach a (m :: ms)
  | reset (a : Arena) (ms : List Arena_Mark) :
      ArenaReach a ms → ArenaReach (arena_reset a) ms
  | rewind (a : Arena) (ms : List Arena_Mark) (m : Arena_Mark) (a2 : Arena) :
      ArenaReach a ms → m ∈ ms → arena_rewind a m = some a2 → ArenaReach a2 ms

/-- Representation invariant of an arena: `end` is `NULL` exactly when the chain is
empty and points into the chain otherwise; every region is filled at most to its
capacity and its byte size fits a `size_t`. -/
def Arena.wf (a : Arena) : Prop :=
  (a.last = none → a.regions = []) ∧
  (∀ e, a.last = some e → e < a.regions.length) ∧
  (∀ r ∈ a.regions, r.count ≤ r.capacity ∧ REGION_HEADER + WORD * r.capacity < SIZE_MOD)

/-- Every region after `end` is unused. -/
def Arena.tail_unused (a : Arena) : Prop :=
  ∀ e, a.last = some e → ∀ j r, e < j → a.regions[j]? = some r → r.count = 0

/-- A mark fits an arena: its region is in the chain and its count is within the
capacity of that region. -/
def Arena_Mark.fits (m : Arena_Mark) (a : Arena) : Prop :=
  ∀ i, m.region = some i → ∃ r, a.regions[i]? = some r ∧ m.count ≤ r.capacity

/-- The arena after allocating 100 bytes, taking a snapshot, allocating 70000 bytes
(which appends a region) and rewinding to the snapshot. -/
def arena_rewound : Arena :=
  { regions := [⟨13, 8192⟩, ⟨0, 8750⟩], last := some 0 }

/-- The arena whose only region, of default capacity, is filled up to `count` words. -/
def arena_single (count : Nat) : Arena :=
  { regions := [⟨count, REGION_DEFAULT_CAPACITY⟩], last := some 0 }

/-- Number of words `arena_alloc` takes for a request of `n` bytes when the rounding
does not wrap around. -/
def words_for (n : Nat) : Nat := (n + WORD - 1) / WORD

/-- The `size` bytes at `p` are bytes a caller may hold: memory outside the arena, or
bytes below the high-water mark of their region (an empty range always qualifies). -/
def range_allocated (a : Arena) (p : Ptr) (size : Nat) : Prop :=
  size = 0 ∨
  match p.block with
  | .other _ => True
  | .region i => ∃ r, a.regions[i]? = some r ∧ p.offset + size ≤ WORD * r.count

/-- A memory in which every byte holds its own offset modulo 256. -/
def mem_offsets : Mem := fun _ off => off % 256

/-! ## Transport (`ipc-client.c`) -/

/-- The array `ipc_magic`: the characters of "i3-ipc". -/
def ipc_magic : List Nat := [105, 51, 45, 105, 112, 99]

/-- The macro `IPC_HEADER_SIZE`: `sizeof(ipc_magic) + 8`. -/
def IPC_HEADER_SIZE : Nat := 6 + 8

/-- The four bytes that `memcpy` reads out of a `uint32_t` object holding `v`, in host
byte order: least significant byte first, or most significant first on a big-endian
host. -/
def uint32_bytes (big_endian : Bool) (v : Nat) : List Nat :=
  let le := [v % 256, v / 256 % 256, v / 65536 % 256, v / 16777216 % 256]
  if big_endian then le.reverse else le

/-- The value of the `uint32_t` object into which `memcpy` wrote the four bytes `b`. -/
def uint32_of_bytes (big_endian : Bool) (b : List Nat) : Nat :=
  let le := if big_endian then (b.take 4).reverse else b.take 4
  (le.getD 0 0 + 256 * le.getD 1 0 + 65536 * le.getD 2 0 + 16777216 * le.getD 3 0) % 2 ^ 32

/-- The buffer `data` of `ipc_single_command` after its three `memcpy` calls: the
magic, then `*len`, then `type`. -/
def ipc_single_command_header (big_endian : Bool) (type len : Nat) : List Nat :=
  ipc_magic ++ uint32_bytes big_endian len ++ uint32_bytes big_endian type

/-- The two `memcpy` calls of `ipc_recv_response` on the received header `data`: the
values stored in `response->size` and `response->type`. -/
def ipc_recv_response_fields (big_endian : Bool) (data : List Nat) : Nat × Nat :=
  (uint32_of_bytes big_endian (data.drop 6), uint32_of_bytes big_endian (data.drop (6 + 4)))

/-- What one call of `recv` returns: the bytes received (none for a return value of 0)
or an error (return value -1). A call never returns more than it asked for, so a longer
list counts for its first bytes only. -/
inductive RecvResult where
  | bytes (received : List Nat)
  | error
  deriving DecidableEq

/-- How `ipc_recv_response` ends: with a response, with `NULL`, by `die`, blocked in a
`recv` that never returns, or undefined because the payload buffer of
`response->size + 1` bytes (computed in 32 bits) is too small. -/
inductive IpcResult where
  | response (size type : Nat) (payload : List Nat)
  | null
  | died
  | blocked
  | undefined
  deriving DecidableEq

/-- The loop `while (total < IPC_HEADER_SIZE)` of `ipc_recv_response`: `data` holds the
`total` bytes received so far. Returns the header and the results not yet consumed. -/
def recv_header : List RecvResult → List Nat → Except IpcResult (List Nat × List RecvResult)
  | [], data => if data.length < IPC_HEADER_SIZE then .error .blocked else .ok (data, [])
  | r :: rest, data =>
    if data.length < IPC_HEADER_SIZE then
      match r with
      | .error => .error .died
      | .bytes received =>
        let got := received.take (IPC_HEADER_SIZE - data.length)
        if got.length ≤ 0 then .error .died else recv_header rest (data ++ got)
    else .ok (data, r :: rest)

/-- The loop `while (total < response->size)` of `ipc_recv_response`: `payload` holds
the `total` bytes received so far. -/
def recv_payload (size : Nat) : List RecvResult → List Nat →
    Except IpcResult (List Nat × List RecvResult)
  | [], payload => if payload.length < size then .error .blocked else .ok (payload, [])
  | r :: rest, payload =>
    if payload.length < size then
      match r with
      | .error => .error .died
      | .bytes received =>
        let got := received.take (size - payload.length)
        recv_payload size rest (payload ++ got)
    else .ok (payload, r :: rest)

/-- Source `ipc_recv_response`: `malloc_response` and `malloc_payload` say whether the
two `malloc` calls succeed, `recvs` is what the successive `recv` calls return. The
payload is given without its terminating NUL. -/
def ipc_recv_response (big_endian malloc_response malloc_payload : Bool)
    (recvs : List RecvResult) : IpcResult :=
  match recv_header recvs [] with
  | .error e => e
  | .ok (data, recvs) =>
    if malloc_response then
      let fields := ipc_recv_response_fields big_endian data
      if malloc_payload then
        if (fields.1 + 1) % 2 ^ 32 = 0 then .undefined
        else
          match recv_payload fields.1 recvs [] with
          | .error e => e
          | .ok (payload, _) => .response fields.1 fields.2 payload
      else .null
    else .null

/-- A header announcing a payload of two bytes, then a `recv` that returns 0, then the
two payload bytes. -/
def recvs_zero_in_payload : List RecvResult :=
  [.bytes (ipc_single_command_header false 4 2), .bytes [], .bytes [65, 66]]

/-- A `recv` that returns 0 before any byte of the header. -/
def recvs_zero_in_header : List RecvResult :=
  [.bytes [], .bytes (ipc_single_command_header false 4 2), .bytes [65, 66]]

/-- A status buffer in the kernel's format of a process whose name is `PPid:` and whose
parent is 5. -/
def status_named_ppid : List Char :=
  "Name:\tPPid:\nUmask:\t0022\nState:\tS (sleeping)\nTgid:\t42\nNgid:\t0\nPid:\t42\nPPid:\t5\n".toList

/-- The same status buffer for a process whose name is `sh`. -/
def status_named_sh : List Char :=
  "Name:\tsh\nUmask:\t0022\nState:\tS (sleeping)\nTgid:\t42\nNgid:\t0\nPid:\t42\nPPid:\t5\n".toList

/-- Each pid occurs in at most one child list of the map, and at most once in it. -/
def child_lists_disjoint (m : PidMap) : Prop :=
  (∀ p, (g_hash_table_lookup m p).Nodup) ∧
  (∀ p1 p2 c, IsChild m p1 c → IsChild m p2 c → p1 = p2)

/-- The child links of the map are acyclic. -/
def child_links_acyclic (m : PidMap) : Prop :=
  ∀ p, ¬ Relation.TransGen (IsChild m) p p

/-- A map in which pid 1 has the children 0 and 2. -/
def pidmap_with_zero : PidMap := [(1, [0, 2])]

/-- A map in which pid 1 has the children 2 and 3. -/
def pidmap_small : PidMap := [(1, [2, 3])]

/-! ## Theorems -/

/-! ### Harvester: traversal -/

theorem foldl_push_head {α : Type} (cs q : List α) :
    cs.foldl g_queue_push_head q = cs.reverse ++ q := by
  induction cs generalizing q with
  | nil => rfl
  | cons c cs ih => simp [List.foldl, g_queue_push_head, ih]

theorem pop_tail_reverse_cons {α : Type} (p : α) (rest : List α) :
    g_queue_pop_tail (p :: rest).reverse = some (p, rest.reverse) := by
  simp [g_queue_pop_tail]

theorem loop_eq_bfs (m : PidMap) (fuel : Nat) (rq result : List pid_t) :
    get_pid_children_loop m fuel rq.reverse result = bfs m fuel rq result := by
  induction fuel generalizing rq result with
  | zero => simp [get_pid_children_loop, bfs]
  | succ n ih =>
    cases rq with
    | nil => simp [get_pid_children_loop, bfs, g_queue_pop_tail]
    | cons p rest =>
      rw [get_pid_children_loop, pop_tail_reverse_cons]
      simp only [bfs, foldl_push_head]
      rw [← ih]
      simp


theorem Cost.append {m : PidMap} {q1 q2 : List pid_t} {a b : Nat}
    (h1 : Cost m q1 a) (h2 : Cost m q2 b) : Cost m (q1 ++ q2) (a + b) := by
  induction h1 with
  | nil => simpa using h2
  | cons p ps a1 b1 hc _ _ ih2 =>
    have := Cost.cons p (ps ++ q2) a1 (b1 + b) hc ih2
    have e : a1 + b1 + 1 + b = a1 + (b1 + b) + 1 := by omega
    rw [e]; exact this

theorem bfs_terminates (m : PidMap) (fuel : Nat) :
    ∀ (rq result : List pid_t) (n : Nat), Cost m rq n → n ≤ fuel →
      ∃ r, bfs m fuel rq result = some r := by
  induction fuel with
  | zero =>
    intro rq result n hc hn
    cases hc with
    | nil => exact ⟨result, by simp [bfs]⟩
    | cons p ps a b _ _ => omega
  | succ k ih =>
    intro rq result n hc hn
    cases hc with
    | nil => exact ⟨result, by simp [bfs]⟩
    | cons p ps a b hca hcb =>
      have h := Cost.append hcb hca
      obtain ⟨r, hr⟩ := ih (ps ++ g_hash_table_lookup m p) (result ++ [p]) (b + a) h (by omega)
      exact ⟨r, by simpa [bfs] using hr⟩

/-- Everything the traversal outputs was already in the result or is a descendant of
a queued pid. -/
theorem bfs_sound (m : PidMap) (fuel : Nat) :
    ∀ (rq result r : List pid_t), bfs m fuel rq result = some r →
      ∀ x ∈ r, x ∈ result ∨ ∃ y ∈ rq, Descendant m y x := by
  induction fuel with
  | zero =>
    intro rq result r h x hx
    by_cases hq : rq = []
    · simp [bfs, hq] at h; subst h; exact Or.inl hx
    · simp [bfs, hq] at h
  | succ k ih =>
    intro rq result r h x hx
    cases rq with
    | nil => simp [bfs] at h; subst h; exact Or.inl hx
    | cons p rest =>
      simp only [bfs] at h
      rcases ih _ _ _ h x hx with h1 | ⟨y, hy, hyx⟩
      · rcases List.mem_append.1 h1 with h2 | h2
        · exact Or.inl h2
        · simp at h2; subst h2
          exact Or.inr ⟨x, by simp, Relation.ReflTransGen.refl⟩
      · rcases List.mem_append.1 hy with h2 | h2
        · exact Or.inr ⟨y, by simp [h2], hyx⟩
        · exact Or.inr ⟨p, by simp, Relation.ReflTransGen.head h2 hyx⟩

/-- The output keeps the earlier result and the queued pids, and is closed under child
links except possibly at pids that were in the result before. -/
theorem bfs_closed (m : PidMap) (fuel : Nat) :
    ∀ (rq result r : List pid_t), bfs m fuel rq result = some r →
      (∀ x ∈ result, x ∈ r) ∧ (∀ x ∈ rq, x ∈ r) ∧
      (∀ x ∈ r, x ∈ result ∨ ∀ c, IsChild m x c → c ∈ r) := by
  induction fuel with
  | zero =>
    intro rq result r h
    by_cases hq : rq = []
    · simp [bfs, hq] at h; subst h; subst hq
      exact ⟨fun x hx => hx, by simp, fun x hx => Or.inl hx⟩
    · simp [bfs, hq] at h
  | succ k ih =>
    intro rq result r h
    cases rq with
    | nil =>
      simp [bfs] at h; subst h
      exact ⟨fun x hx => hx, by simp, fun x hx => Or.inl hx⟩
    | cons p rest =>
      simp only [bfs] at h
      obtain ⟨h1, h2, h3⟩ := ih _ _ _ h
      refine ⟨fun x hx => h1 x (by simp [hx]), ?_, ?_⟩
      · intro x hx
        rcases List.mem_cons.1 hx with e | e
        · subst e; exact h1 x (by simp)
        · exact h2 x (by simp [e])
      · intro x hx
        rcases h3 x hx with e | e
        · rcases List.mem_append.1 e with e1 | e1
          · exact Or.inl e1
          · simp at e1; subst e1
            exact Or.inr (fun c hc => h2 c (List.mem_append.2 (Or.inr hc)))
        · exact Or.inr e

theorem bfs_root_spec (m : PidMap) (fuel : Nat) (root : pid_t) (r : List pid_t)
    (h : bfs m fuel [root] [] = some r) : ∀ x, x ∈ r ↔ Descendant m root x := by
  intro x
  constructor
  · intro hx
    rcases bfs_sound m fuel _ _ _ h x hx with h1 | ⟨y, hy, hyx⟩
    · simp at h1
    · simp at hy; subst hy; exact hyx
  · intro hx
    obtain ⟨_, h2, h3⟩ := bfs_closed m fuel _ _ _ h
    induction hx with
    | refl => exact h2 root (by simp)
    | tail _ hbc ih =>
      rcases h3 _ ih with e | e
      · simp at e
      · exact e _ hbc


theorem lookup_insert (m : PidMap) (k k2 : pid_t) (v : List pid_t) :
    g_hash_table_lookup (g_hash_table_insert m k v) k2 =
      if k2 = k then v else g_hash_table_lookup m k2 := by
  induction m with
  | nil =>
    by_cases h : k = k2
    · simp [g_hash_table_insert, g_hash_table_lookup, h]
    · have h2 : ¬ k2 = k := fun e => h e.symm
      simp [g_hash_table_insert, g_hash_table_lookup, h, h2]
  | cons e rest ih =>
    obtain ⟨k1, w⟩ := e
    by_cases h1 : k1 = k
    · subst h1
      by_cases h2 : k1 = k2
      · subst h2; simp [g_hash_table_insert, g_hash_table_lookup]
      · have h3 : ¬ k2 = k1 := fun e => h2 e.symm
        simp [g_hash_table_insert, g_hash_table_lookup, h2, h3]
    · by_cases h2 : k1 = k2
      · subst h2; simp [g_hash_table_insert, g_hash_table_lookup, h1]
      · simp [g_hash_table_insert, g_hash_table_lookup, h1, h2, ih]

theorem lookup_append_stored (m : PidMap) (k k2 x : pid_t)
    (hk : g_hash_table_lookup m k ≠ []) :
    g_hash_table_lookup (g_list_append_stored m k x) k2 =
      if k2 = k then g_hash_table_lookup m k ++ [x] else g_hash_table_lookup m k2 := by
  induction m with
  | nil => simp [g_hash_table_lookup] at hk
  | cons e rest ih =>
    obtain ⟨k1, w⟩ := e
    by_cases h1 : k1 = k
    · subst h1
      by_cases h2 : k1 = k2
      · subst h2; simp [g_list_append_stored, g_hash_table_lookup]
      · have h3 : ¬ k2 = k1 := fun e => h2 e.symm
        simp [g_list_append_stored, g_hash_table_lookup, h2, h3]
    · have hk2 : g_hash_table_lookup rest k ≠ [] := by
        simpa [g_hash_table_lookup, h1] using hk
      by_cases h2 : k1 = k2
      · subst h2; simp [g_list_append_stored, g_hash_table_lookup, h1]
      · simp [g_list_append_stored, g_hash_table_lookup, h1, h2, ih hk2]

theorem lookup_record_relationship (m : PidMap) (ppid pid k : pid_t) :
    g_hash_table_lookup (record_relationship m ppid pid) k =
      if ppid ≠ 0 ∧ k = ppid then g_hash_table_lookup m ppid ++ [pid]
      else g_hash_table_lookup m k := by
  unfold record_relationship
  by_cases h0 : ppid = 0
  · simp [h0]
  · simp only [ne_eq, h0, not_false_eq_true, if_true, true_and]
    cases hl : g_hash_table_lookup m ppid with
    | nil => simp only [lookup_insert]; by_cases hk : k = ppid <;> simp [hk, hl]
    | cons a l =>
      simp only
      rw [lookup_append_stored m ppid k pid (by simp [hl])]
      by_cases hk : k = ppid <;> simp [hk, hl]

theorem mem_lookup_foldl (tbl : List (pid_t × pid_t)) (m : PidMap) (p c : pid_t) :
    c ∈ g_hash_table_lookup (tbl.foldl (fun m e => record_relationship m e.2 e.1) m) p ↔
      c ∈ g_hash_table_lookup m p ∨ ((c, p) ∈ tbl ∧ p ≠ 0) := by
  induction tbl generalizing m with
  | nil => simp
  | cons e rest ih =>
    obtain ⟨pid, ppid⟩ := e
    rw [List.foldl_cons, ih, lookup_record_relationship]
    by_cases h : ppid ≠ 0 ∧ p = ppid
    · obtain ⟨h0, hp⟩ := h
      subst hp
      simp only [ne_eq, h0, not_false_eq_true, and_self, if_true, List.mem_append,
        List.mem_singleton, List.mem_cons, Prod.mk.injEq, and_true]
      tauto
    · simp only [h, if_false, List.mem_cons, Prod.mk.injEq]
      constructor
      · rintro (h1 | h1)
        · exact Or.inl h1
        · exact Or.inr ⟨Or.inr h1.1, h1.2⟩
      · rintro (h1 | ⟨h1 | h1, h2⟩)
        · exact Or.inl h1
        · exact absurd ⟨h1.2 ▸ h2, h1.2⟩ h
        · exact Or.inr ⟨h1, h2⟩

/-- The child lists of the built map are exactly the recorded (non-zero) parent links. -/
theorem isChild_pidmap_of_table (tbl : List (pid_t × pid_t)) (p c : pid_t) :
    IsChild (pidmap_of_table tbl) p c ↔ (c, p) ∈ tbl ∧ p ≠ 0 := by
  unfold IsChild pidmap_of_table
  rw [mem_lookup_foldl]
  simp [g_hash_table_lookup]

/-- Acyclic parent links over a finite table make the child relation well founded. -/
theorem wellFounded_of_acyclic (tbl : List (pid_t × pid_t))
    (hacyc : ∀ p, ¬ Relation.TransGen (fun c q => (c, q) ∈ tbl) p p) :
    WellFounded (fun c p => (c, p) ∈ tbl) := by
  haveI : IsStrictOrder pid_t (Relation.TransGen (fun c q => (c, q) ∈ tbl)) :=
    { irrefl := hacyc, trans := fun _ _ _ h1 h2 => h1.trans h2 }
  have hwf := Finset.wellFoundedOn (r := Relation.TransGen (fun c q => (c, q) ∈ tbl))
    ((tbl.map Prod.fst ++ tbl.map Prod.snd).toFinset)
  rw [Set.wellFoundedOn_iff] at hwf
  refine Subrelation.wf ?_ hwf
  intro c p h
  refine ⟨Relation.TransGen.single h, ?_, ?_⟩
  · simp only [Finset.mem_coe, List.mem_toFinset, List.mem_append, List.mem_map]
    exact Or.inl ⟨(c, p), h, rfl⟩
  · simp only [Finset.mem_coe, List.mem_toFinset, List.mem_append, List.mem_map]
    exact Or.inr ⟨(c, p), h, rfl⟩

theorem cost_of_forall (m : PidMap) (cs : List pid_t)
    (h : ∀ c ∈ cs, ∃ a, Cost m (g_hash_table_lookup m c) a) : ∃ n, Cost m cs n := by
  induction cs with
  | nil => exact ⟨0, Cost.nil⟩
  | cons c cs ih =>
    obtain ⟨a, ha⟩ := h c (by simp)
    obtain ⟨b, hb⟩ := ih (fun x hx => h x (by simp [hx]))
    exact ⟨a + b + 1, Cost.cons c cs a b ha hb⟩

theorem cost_of_acyclic (tbl : List (pid_t × pid_t))
    (hacyc : ∀ p, ¬ Relation.TransGen (fun c q => (c, q) ∈ tbl) p p) (p : pid_t) :
    ∃ a, Cost (pidmap_of_table tbl) (g_hash_table_lookup (pidmap_of_table tbl) p) a := by
  induction p using (wellFounded_of_acyclic tbl hacyc).induction with
  | _ p ih =>
    apply cost_of_forall
    intro c hc
    exact ih c ((isChild_pidmap_of_table tbl p c).1 hc).1

theorem get_pid_children_eq_bfs (m : PidMap) (fuel : Nat) (root : pid_t) :
    get_pid_children_loop m fuel (g_queue_push_head [] root) [] = bfs m fuel [root] [] := by
  have := loop_eq_bfs m fuel [root] []
  simpa [g_queue_push_head] using this


/-- C1: for an adjacency map built from a parent table in which each pid has at most
one recorded parent and the parent links are acyclic, `get_pid_children` returns (with
enough fuel the traversal finishes) a list whose elements are exactly the root and the
pids reachable from it through child links. For the parent links
{(2,1),(3,2),(4,2),(5,1)} root 1 gives {1,2,3,4,5} and root 2 gives {2,3,4}; a root
that is not a key of the map gives exactly the list holding the root. -/
theorem get_pid_children_descendant_set :
    (∀ (tbl : List (pid_t × pid_t)) (root : pid_t),
      (∀ c p1 p2, (c, p1) ∈ tbl → (c, p2) ∈ tbl → p1 = p2) →
      (∀ p, ¬ Relation.TransGen (fun c q => (c, q) ∈ tbl) p p) →
      ∃ N, ∀ fuel, N ≤ fuel → ∃ r,
        get_pid_children fuel (some (pidmap_of_table tbl)) root = some (some r) ∧
        ∀ x, x ∈ r ↔ Descendant (pidmap_of_table tbl) root x) ∧
    (∃ r, get_pid_children 5 (some (pidmap_of_table [(2, 1), (3, 2), (4, 2), (5, 1)])) 1
        = some (some r) ∧ ∀ x, x ∈ r ↔ x ∈ [1, 2, 3, 4, 5]) ∧
    (∃ r, get_pid_children 3 (some (pidmap_of_table [(2, 1), (3, 2), (4, 2), (5, 1)])) 2
        = some (some r) ∧ ∀ x, x ∈ r ↔ x ∈ [2, 3, 4]) ∧
    (∀ (m : PidMap) (root : pid_t) (fuel : Nat), g_hash_table_lookup m root = [] →
      get_pid_children (fuel + 1) (some m) root = some (some [root])) := by
  refine ⟨?_, ?_, ?_, ?_⟩
  · intro tbl root _ hacyc
    obtain ⟨a, ha⟩ := cost_of_acyclic tbl hacyc root
    have hc : Cost (pidmap_of_table tbl) [root] (a + 0 + 1) := Cost.cons root [] a 0 ha Cost.nil
    refine ⟨a + 0 + 1, fun fuel hf => ?_⟩
    obtain ⟨r, hr⟩ := bfs_terminates (pidmap_of_table tbl) fuel [root] [] _ hc hf
    refine ⟨r, ?_, bfs_root_spec _ fuel root r hr⟩
    simp [get_pid_children, get_pid_children_eq_bfs, hr]
  · refine ⟨[1, 2, 5, 3, 4], by decide, ?_⟩
    intro x; simp only [List.mem_cons, List.mem_singleton, List.not_mem_nil, or_false]; tauto
  · refine ⟨[2, 3, 4], by decide, fun x => Iff.rfl⟩
  · intro m root fuel h
    cases fuel with
    | zero =>
      simp [get_pid_children, get_pid_children_loop, g_queue_push_head, g_queue_pop_tail, h]
    | succ k =>
      simp [get_pid_children, get_pid_children_loop, g_queue_push_head, g_queue_pop_tail, h]

theorem transGen_lt_of_links (tbl : List (pid_t × pid_t))
    (h : ∀ e ∈ tbl, e.2 < e.1) (a b : pid_t)
    (hab : Relation.TransGen (fun c q => (c, q) ∈ tbl) a b) : b < a := by
  induction hab with
  | single h1 => exact h _ h1
  | tail _ h1 ih => exact lt_trans (h _ h1) ih

/-- C1 at the table {(2,1),(3,2),(4,2),(5,1)} with root 1. -/
theorem get_pid_children_descendant_set_witness :
    ∃ N, ∀ fuel, N ≤ fuel → ∃ r,
      get_pid_children fuel (some (pidmap_of_table [(2, 1), (3, 2), (4, 2), (5, 1)])) 1
        = some (some r) ∧
      ∀ x, x ∈ r ↔ Descendant (pidmap_of_table [(2, 1), (3, 2), (4, 2), (5, 1)]) 1 x :=
  get_pid_children_descendant_set.1 [(2, 1), (3, 2), (4, 2), (5, 1)] 1
    (by
      intro c p1 p2 h1 h2
      simp only [List.mem_cons, Prod.mk.injEq, List.mem_singleton, List.not_mem_nil,
        or_false] at h1 h2
      rcases h1 with ⟨rfl, rfl⟩ | ⟨rfl, rfl⟩ | ⟨rfl, rfl⟩ | ⟨rfl, rfl⟩ <;> simp at h2 <;>
        exact h2.symm)
    (fun p hp => lt_irrefl p
      (transGen_lt_of_links [(2, 1), (3, 2), (4, 2), (5, 1)] (by decide) p p hp))


/-! ### Harvester: draining completions -/

/-- C2 (evaluation at the failing input): with two candidates of which the first
vanished before its open, every negative result delivered is one of `-ENOENT`,
`-ECANCELED`, `-ESRCH`, the read of pid 20 completes with data and parent id 1, and
yet `get_pid_relationships` returns a map without the link from 1 to 20: the two
negative results of the vanished unit bring the pending counter from 2 to 0. -/
theorem drain_loop_drops_link_after_vanished_unit :
    (∀ c ∈ vanished_first, ∀ q ∈ c.cqes, q.res < 0 →
      q.res = -ENOENT ∨ q.res = -ECANCELED ∨ q.res = -ESRCH) ∧
    (∃ c ∈ vanished_first, ∃ q ∈ c.cqes, ∃ d, q.data = some d ∧ 0 < q.res ∧ d.pid = 20 ∧
      parse_ppid d.buf = some 1) ∧
    get_pid_relationships true 2 vanished_first = Harvest.map [] ∧
    (20 : pid_t) ∉ g_hash_table_lookup [] 1 := by
  refine ⟨by decide, ?_, by decide, by decide⟩
  exact ⟨_, List.mem_cons_of_mem _ (List.mem_cons_self _ _), _,
    List.mem_cons_of_mem _ (List.mem_cons_self _ _), _, rfl, by decide, rfl, by decide⟩


/-! ### Engine: walking the window tree -/

theorem json_weight_members_get (ms : List (String × json_t)) (name : String) (v : json_t)
    (h : json_members_get ms name = some v) : json_weight v ≤ json_weight_members ms := by
  induction ms with
  | nil => simp [json_members_get] at h
  | cons e rest ih =>
    obtain ⟨k, w⟩ := e
    by_cases hk : k = name
    · simp [json_members_get, hk] at h; subst h; simp [json_weight_members]
    · simp [json_members_get, hk] at h; have := ih h; simp [json_weight_members]; omega

theorem json_weight_list_append (xs ys : List json_t) :
    json_weight_list (xs ++ ys) = json_weight_list xs + json_weight_list ys := by
  induction xs with
  | nil => simp [json_weight_list]
  | cons x xs ih => simp [json_weight_list, ih]; omega

theorem json_weight_list_reverse (xs : List json_t) :
    json_weight_list xs.reverse = json_weight_list xs := by
  induction xs with
  | nil => rfl
  | cons x xs ih => simp [json_weight_list, json_weight_list_append, ih]; omega

theorem pop_tail_some {α : Type} (q : List α) (x : α) (r : List α)
    (h : g_queue_pop_tail q = some (x, r)) : q = r ++ [x] := by
  unfold g_queue_pop_tail at h
  cases hq : q.getLast? with
  | none => simp [hq] at h
  | some y =>
    simp [hq] at h
    obtain ⟨h1, h2⟩ := h
    subst h1; subst h2
    have := List.dropLast_append_getLast? y hq
    exact this.symm

theorem iter_weight_next (it it2 : List json_t) (node : json_t)
    (h : sway_tree_iter_next it = .ok (some (node, it2))) :
    iter_weight it2 < iter_weight it := by
  unfold sway_tree_iter_next at h
  cases hp : g_queue_pop_tail it with
  | none => simp [hp] at h
  | some pr =>
    obtain ⟨nd, q⟩ := pr
    simp only [hp] at h
    have hit := pop_tail_some it nd q hp
    cases hn : json_object_get nd "nodes" with
    | none => simp [hn] at h
    | some v =>
      cases v with
      | array children =>
        simp only [hn, Except.ok.injEq, Option.some.injEq, Prod.mk.injEq] at h
        obtain ⟨h1, h2⟩ := h
        subst h1; subst h2; subst hit
        cases nd with
        | object members =>
          have h1 := json_weight_members_get members "nodes" _ hn
          simp only [iter_weight, foldl_push_head, json_weight_list_append,
            json_weight_list_reverse, json_weight_list, json_weight]
          simp only [json_weight] at h1
          omega
        | _ => simp [json_object_get] at hn
      | _ => simp [hn] at h

theorem iter_sway_apps_terminates (fuel : Nat) :
    ∀ it, iter_weight it < fuel → ∃ r, iter_sway_apps fuel it = some r ∧
      ∀ w it2, r = .ok (some (w, it2)) → iter_weight it2 < iter_weight it := by
  induction fuel with
  | zero => intro it h; omega
  | succ k ih =>
    intro it h
    unfold iter_sway_apps
    cases hn : sway_tree_iter_next it with
    | error e => exact ⟨_, rfl, by simp⟩
    | ok o =>
      cases o with
      | none => exact ⟨_, rfl, by simp⟩
      | some pr =>
        obtain ⟨node, it1⟩ := pr
        have hw := iter_weight_next it it1 node hn
        have hrec : ∃ r, iter_sway_apps k it1 = some r ∧
            ∀ w it2, r = .ok (some (w, it2)) → iter_weight it2 < iter_weight it := by
          obtain ⟨r, hr, hr2⟩ := ih it1 (by omega)
          exact ⟨r, hr, fun w it2 e => lt_trans (hr2 w it2 e) hw⟩
        simp only
        cases ha : json_object_get node "app_id" with
        | none => simpa using hrec
        | some v =>
          cases v with
          | null => simpa using hrec
          | string app_id =>
            simp only
            cases hpid : json_int_or_die node "pid" with
            | error e => exact ⟨_, rfl, by simp⟩
            | ok pid =>
              simp only
              cases hf : json_bool_or_die node "focused" with
              | error e => exact ⟨_, rfl, by simp⟩
              | ok focused =>
                refine ⟨_, rfl, ?_⟩
                intro w it2 e
                simp only [Except.ok.injEq, Option.some.injEq, Prod.mk.injEq] at e
                rw [← e.2]; exact hw
          | boolean b => exact ⟨_, rfl, by simp⟩
          | integer i => exact ⟨_, rfl, by simp⟩
          | array l => exact ⟨_, rfl, by simp⟩
          | object ms => exact ⟨_, rfl, by simp⟩

theorem while_iter_sway_apps_terminates {σ : Type} (body : σ → window_info → σ)
    (fuel : Nat) : ∀ (s : σ) (it : List json_t), iter_weight it < fuel →
      ∃ o, while_iter_sway_apps body fuel s it = some o := by
  induction fuel with
  | zero => intro s it h; omega
  | succ k ih =>
    intro s it h
    obtain ⟨r, hr, hr2⟩ := iter_sway_apps_terminates (k + 1) it h
    unfold while_iter_sway_apps
    rw [hr]
    cases r with
    | error e => exact ⟨_, rfl⟩
    | ok o =>
      cases o with
      | none => exact ⟨_, rfl⟩
      | some pr =>
        obtain ⟨w, it2⟩ := pr
        have := hr2 w it2 rfl
        exact ih (body s w) it2 (by omega)

theorem sway_windows_acc (fuel : Nat) : ∀ (acc : List window_info) (it : List json_t),
    while_iter_sway_apps (fun ws win => ws ++ [win]) fuel acc it =
      (while_iter_sway_apps (fun ws win => ws ++ [win]) fuel [] it).map
        (Outcome.map (fun ws => acc ++ ws)) := by
  induction fuel with
  | zero => intro acc it; simp [while_iter_sway_apps]
  | succ k ih =>
    intro acc it
    unfold while_iter_sway_apps
    cases hr : iter_sway_apps (k + 1) it with
    | none => simp
    | some r =>
      cases r with
      | error e => simp [Outcome.map]
      | ok o =>
        cases o with
        | none => simp [Outcome.map]
        | some pr =>
          obtain ⟨w, it2⟩ := pr
          simp only
          rw [ih (acc ++ [w]) it2, ih ([] ++ [w]) it2]
          cases while_iter_sway_apps (fun ws win => ws ++ [win]) k [] it2 with
          | none => simp
          | some o => cases o <;> simp [Outcome.map]

/-- A loop over the windows is the fold of its body over the windows that the iterator
yields; when the walk dies, the state is the fold over the windows seen until then. -/
theorem while_iter_sway_apps_eq_fold {σ : Type} (body : σ → window_info → σ) (fuel : Nat) :
    ∀ (s : σ) (it : List json_t),
      while_iter_sway_apps body fuel s it =
        (sway_windows fuel it).map (Outcome.map (fun ws => ws.foldl body s)) := by
  unfold sway_windows
  induction fuel with
  | zero => intro s it; simp [while_iter_sway_apps]
  | succ k ih =>
    intro s it
    unfold while_iter_sway_apps
    cases hr : iter_sway_apps (k + 1) it with
    | none => simp
    | some r =>
      cases r with
      | error e => simp [Outcome.map]
      | ok o =>
        cases o with
        | none => simp [Outcome.map]
        | some pr =>
          obtain ⟨w, it2⟩ := pr
          simp only
          rw [ih (body s w) it2, sway_windows_acc k ([] ++ [w]) it2]
          cases while_iter_sway_apps (fun ws win => ws ++ [win]) k [] it2 with
          | none => simp
          | some o => cases o <;> simp [Outcome.map]


/-! ### Engine: signalling -/

theorem is_suspended_iff (ctx : context) (a : String) :
    is_suspended ctx a = true ↔ a ∈ ctx.suspended_procs := by
  simp [is_suspended, List.any_eq_true]

theorem kill_all_eq (harvest : pid_t → Option (List pid_t)) (m : Machine) (pid : pid_t)
    (signum : Int) :
    kill_all harvest m pid signum =
      ((harvest pid).isSome, { m with kills := m.kills ++ sent_by harvest pid signum }) := by
  unfold kill_all sent_by
  cases harvest pid <;> simp

theorem resume_app_eq (harvest : pid_t → Option (List pid_t)) (m : Machine) (a : String)
    (pid : pid_t) :
    (resume_app harvest m a pid).2 =
      { m with
        kills := m.kills ++ sent_by harvest pid SIGCONT
        ctx := { m.ctx with suspended_procs :=
          if (harvest pid).isSome then m.ctx.suspended_procs.filter (fun name => name ≠ a)
          else m.ctx.suspended_procs } } := by
  unfold resume_app
  rw [kill_all_eq]
  cases h : harvest pid <;> simp [sent_by, h]

theorem suspend_app_eq (harvest : pid_t → Option (List pid_t)) (m : Machine) (a : String)
    (pid : pid_t) :
    (suspend_app harvest m a pid).2 =
      { m with
        kills := m.kills ++ sent_by harvest pid SIGSTOP
        ctx := { m.ctx with suspended_procs :=
          if (harvest pid).isSome then
            (if m.ctx.suspended_procs.any (fun name => name = a) then m.ctx.suspended_procs
             else m.ctx.suspended_procs ++ [a])
          else m.ctx.suspended_procs } } := by
  unfold suspend_app
  rw [kill_all_eq]
  cases h : harvest pid <;> simp [sent_by, h]

theorem mem_sent_by (harvest : pid_t → Option (List pid_t)) (pid : pid_t) (signum : Int)
    (k : pid_t × Int) :
    k ∈ sent_by harvest pid signum ↔
      k.2 = signum ∧ ∃ pids, harvest pid = some pids ∧
        k.1 ∈ pids.takeWhile (fun p => p ≠ 0) := by
  unfold sent_by
  cases h : harvest pid with
  | none => simp
  | some pids =>
    obtain ⟨k1, k2⟩ := k
    simp only [List.mem_map, Prod.mk.injEq, Option.some.injEq, exists_eq_left']
    constructor
    · rintro ⟨p, hp, rfl, rfl⟩; exact ⟨rfl, hp⟩
    · rintro ⟨rfl, hp⟩; exact ⟨k1, hp, rfl, rfl⟩

/-- What a completed pass of `resume_all_apps` over the windows `ws` does. -/
theorem resume_fold_spec (harvest : pid_t → Option (List pid_t)) (ws : List window_info) :
    ∀ m : Machine,
      (ws.foldl (resume_window harvest) m).ctx.proc_names = m.ctx.proc_names ∧
      (ws.foldl (resume_window harvest) m).timer_armed = m.timer_armed ∧
      (∃ extra, (ws.foldl (resume_window harvest) m).kills = m.kills ++ extra ∧
        (∀ k ∈ extra, k.2 = SIGCONT) ∧
        ∀ w ∈ ws, should_suspend m.ctx w.app_id = true →
          ∀ k ∈ sent_by harvest w.pid SIGCONT, k ∈ extra) ∧
      (∀ a, a ∈ (ws.foldl (resume_window harvest) m).ctx.suspended_procs ↔
        a ∈ m.ctx.suspended_procs ∧
          ∀ w ∈ ws, w.app_id = a → should_suspend m.ctx a = true → harvest w.pid = none) := by
  induction ws with
  | nil => intro m; exact ⟨rfl, rfl, ⟨[], by simp⟩, by simp⟩
  | cons w ws ih =>
    intro m
    rw [List.foldl_cons]
    obtain ⟨h1, h2, ⟨extra, h3, h4, h5⟩, h6⟩ := ih (resume_window harvest m w)
    have hstep : resume_window harvest m w =
        if should_suspend m.ctx w.app_id then (resume_app harvest m w.app_id w.pid).2
        else m := rfl
    have hn : (resume_window harvest m w).ctx.proc_names = m.ctx.proc_names := by
      rw [hstep]; split <;> simp [resume_app_eq]
    have hss : ∀ a, should_suspend (resume_window harvest m w).ctx a = should_suspend m.ctx a := by
      intro a; simp [should_suspend, hn]
    refine ⟨h1.trans hn, ?_, ?_, ?_⟩
    · rw [h2, hstep]; split <;> simp [resume_app_eq]
    · by_cases ht : should_suspend m.ctx w.app_id = true
      · have hk : (resume_window harvest m w).kills =
            m.kills ++ sent_by harvest w.pid SIGCONT := by
          rw [hstep]; simp [ht, resume_app_eq]
        refine ⟨sent_by harvest w.pid SIGCONT ++ extra, ?_, ?_, ?_⟩
        · rw [h3, hk, List.append_assoc]
        · intro k hk2
          rcases List.mem_append.1 hk2 with e | e
          · exact ((mem_sent_by _ _ _ _).1 e).1
          · exact h4 k e
        · intro w2 hw2 ht2 k hk2
          rcases List.mem_cons.1 hw2 with e | e
          · subst e; exact List.mem_append.2 (Or.inl hk2)
          · exact List.mem_append.2 (Or.inr (h5 w2 e (by rw [hss]; exact ht2) k hk2))
      · have hk : (resume_window harvest m w).kills = m.kills := by
          rw [hstep]; simp [ht]
        refine ⟨extra, by rw [h3, hk], h4, ?_⟩
        intro w2 hw2 ht2 k hk2
        rcases List.mem_cons.1 hw2 with e | e
        · subst e; exact absurd ht2 ht
        · exact h5 w2 e (by rw [hss]; exact ht2) k hk2
    · intro a
      rw [h6 a]
      have hs : a ∈ (resume_window harvest m w).ctx.suspended_procs ↔
          a ∈ m.ctx.suspended_procs ∧
            (w.app_id = a → should_suspend m.ctx a = true → harvest w.pid = none) := by
        rw [hstep]
        by_cases ht : should_suspend m.ctx w.app_id = true
        · simp only [ht, if_true, resume_app_eq]
          cases hh : harvest w.pid with
          | none => simp
          | some pids =>
            simp only [Option.isSome_some, if_true, List.mem_filter, ne_eq,
              decide_not, Bool.not_eq_true', decide_eq_false_iff_not]
            constructor
            · rintro ⟨ha, hne⟩; exact ⟨ha, fun e => absurd e.symm hne⟩
            · rintro ⟨ha, himp⟩
              refine ⟨ha, fun e => ?_⟩
              have := himp e.symm (e ▸ ht)
              simp at this
        · simp only [ht]
          constructor
          · intro ha; exact ⟨ha, fun e ht2 => absurd (e ▸ ht2) ht⟩
          · intro ha; exact ha.1
      rw [hs]
      simp only [hss, List.mem_cons, forall_eq_or_imp]
      tauto


theorem while_iter_sway_apps_ok {σ : Type} (body : σ → window_info → σ) (fuel : Nat)
    (s s2 : σ) (it : List json_t)
    (h : while_iter_sway_apps body fuel s it = some (.ok s2)) :
    ∃ ws, sway_windows fuel it = some (.ok ws) ∧ s2 = ws.foldl body s := by
  rw [while_iter_sway_apps_eq_fold] at h
  cases hw : sway_windows fuel it with
  | none => simp [hw] at h
  | some o =>
    cases o with
    | ok ws =>
      simp only [hw, Option.map_some', Outcome.map, Option.some.injEq, Outcome.ok.injEq] at h
      exact ⟨ws, rfl, h.symm⟩
    | died ws => simp [hw, Outcome.map] at h
    | hung ws => simp [hw, Outcome.map] at h

theorem stops_append (xs ys : List (pid_t × Int)) : stops (xs ++ ys) = stops xs ++ stops ys := by
  simp [stops]

theorem stops_eq_nil_of_cont (xs : List (pid_t × Int)) (h : ∀ k ∈ xs, k.2 = SIGCONT) :
    stops xs = [] := by
  simp only [stops, List.filter_eq_nil_iff, decide_eq_true_eq]
  intro k hk e
  have := h k hk
  rw [e] at this
  exact absurd this (by decide)

/-- C3 (the claim fails): `app` is tracked and suspended and has a window in the tree
seen at exit, but the harvest of its pid fails; the exit handler returns without
having sent any signal and `app` is still in the suspended set. -/
theorem atexit_handler_leaves_app_suspended :
    atexit_handler (fun _ => none) 3 machine_app_suspended tree_one_window
      = some (.ok machine_app_suspended) ∧
    is_suspended machine_app_suspended.ctx "app" = true ∧
    should_suspend machine_app_suspended.ctx "app" = true ∧
    machine_app_suspended.kills = [] := by
  decide

/-- C3 (amended): with enough fuel the exit handler ends; when it returns normally,
for every window the walk of the tree yields whose application is tracked and whose
descendant harvest succeeds, the continue signal has been sent to every entry of the
harvested array (up to its zero terminator) and the application is not in the suspended
set; an application is still in the suspended set exactly when it was suspended before
and has no such window; no stop signal is sent. -/
theorem atexit_handler_resumes_windows (harvest : pid_t → Option (List pid_t))
    (m : Machine) (tree : json_t) :
    ∃ N, ∀ fuel, N ≤ fuel → ∃ o, atexit_handler harvest fuel m tree = some o ∧
      ∀ m2, o = .ok m2 →
        ∃ ws, sway_windows fuel (get_sway_tree_iter tree) = some (.ok ws) ∧
          (∀ w ∈ ws, should_suspend m.ctx w.app_id = true →
            ∀ pids, harvest w.pid = some pids →
              (∀ p ∈ pids.takeWhile (fun p => p ≠ 0), (p, SIGCONT) ∈ m2.kills) ∧
              is_suspended m2.ctx w.app_id = false) ∧
          (∀ a, is_suspended m2.ctx a = true ↔
            (is_suspended m.ctx a = true ∧
              ∀ w ∈ ws, w.app_id = a → should_suspend m.ctx a = true →
                harvest w.pid = none)) ∧
          stops m2.kills = stops m.kills := by
  refine ⟨iter_weight (get_sway_tree_iter tree) + 1, fun fuel hf => ?_⟩
  obtain ⟨o, ho⟩ := while_iter_sway_apps_terminates (resume_window harvest) fuel m
    (get_sway_tree_iter tree) (by omega)
  refine ⟨o, ho, fun m2 hm2 => ?_⟩
  subst hm2
  obtain ⟨ws, hws, hfold⟩ := while_iter_sway_apps_ok _ _ _ _ _ ho
  obtain ⟨_, _, ⟨extra, h3, h4, h5⟩, h6⟩ := resume_fold_spec harvest ws m
  rw [← hfold] at h3 h6
  have hsusp : ∀ a, is_suspended m2.ctx a = true ↔
      (is_suspended m.ctx a = true ∧
        ∀ w ∈ ws, w.app_id = a → should_suspend m.ctx a = true → harvest w.pid = none) := by
    intro a; rw [is_suspended_iff, is_suspended_iff]; exact h6 a
  refine ⟨ws, hws, ?_, hsusp, ?_⟩
  · intro w hw ht pids hp
    constructor
    · intro p hpm
      rw [h3]
      refine List.mem_append.2 (Or.inr (h5 w hw ht _ ?_))
      exact (mem_sent_by _ _ _ _).2 ⟨rfl, pids, hp, hpm⟩
    · cases hs : is_suspended m2.ctx w.app_id with
      | false => rfl
      | true =>
        have := ((hsusp w.app_id).1 hs).2 w hw rfl ht
        rw [hp] at this
        exact absurd this (by simp)
  · rw [h3, stops_append, stops_eq_nil_of_cont extra h4, List.append_nil]

/-- C3 (amended) at the tree with one window of `app`, pid 10, whose harvest gives the
array 10, 11: both pids are sent the continue signal and `app` leaves the suspended
set. -/
theorem atexit_handler_resumes_windows_witness :
    (∃ N, ∀ fuel, N ≤ fuel → ∃ o,
      atexit_handler (fun _ => some [10, 11]) fuel machine_app_suspended tree_one_window
        = some o ∧
      ∀ m2, o = .ok m2 →
        ∃ ws, sway_windows fuel (get_sway_tree_iter tree_one_window) = some (.ok ws) ∧
          (∀ w ∈ ws, should_suspend machine_app_suspended.ctx w.app_id = true →
            ∀ pids, (fun _ => some [10, 11] : pid_t → Option (List pid_t)) w.pid = some pids →
              (∀ p ∈ pids.takeWhile (fun p => p ≠ 0), (p, SIGCONT) ∈ m2.kills) ∧
              is_suspended m2.ctx w.app_id = false) ∧
          (∀ a, is_suspended m2.ctx a = true ↔
            (is_suspended machine_app_suspended.ctx a = true ∧
              ∀ w ∈ ws, w.app_id = a → should_suspend machine_app_suspended.ctx a = true →
                (fun _ => some [10, 11] : pid_t → Option (List pid_t)) w.pid = none)) ∧
          stops m2.kills = stops machine_app_suspended.kills) ∧
    atexit_handler (fun _ => some [10, 11]) 3 machine_app_suspended tree_one_window
      = some (.ok { ctx := { proc_names := ["app"], suspended_procs := [] },
                    timer_armed := false, timer_ticks := 0,
                    kills := [(10, SIGCONT), (11, SIGCONT)] }) :=
  ⟨atexit_handler_resumes_windows (fun _ => some [10, 11]) machine_app_suspended
    tree_one_window, by decide⟩


theorem suspend_window_eq (harvest : pid_t → Option (List pid_t)) (m : Machine)
    (w : window_info) :
    suspend_window harvest m w =
      if w.focused = false ∧ should_suspend m.ctx w.app_id = true ∧
          w.app_id ∉ m.ctx.suspended_procs then
        { m with
          kills := m.kills ++ sent_by harvest w.pid SIGSTOP
          ctx := { m.ctx with suspended_procs :=
            if (harvest w.pid).isSome then m.ctx.suspended_procs ++ [w.app_id]
            else m.ctx.suspended_procs } }
      else m := by
  unfold suspend_window
  by_cases hq : w.focused = false ∧ should_suspend m.ctx w.app_id = true ∧
      w.app_id ∉ m.ctx.suspended_procs
  · obtain ⟨h1, h2, h3⟩ := hq
    have h4 : is_suspended m.ctx w.app_id = false := by
      cases h : is_suspended m.ctx w.app_id with
      | false => rfl
      | true => exact absurd ((is_suspended_iff _ _).1 h) h3
    have h5 : (m.ctx.suspended_procs.any fun name => decide (name = w.app_id)) = false := h4
    simp [h1, h2, h3, h4, suspend_app_eq, h5]
  · have : (!w.focused && should_suspend m.ctx w.app_id && !is_suspended m.ctx w.app_id)
        = false := by
      cases hf : w.focused with
      | true => simp
      | false =>
        cases ht : should_suspend m.ctx w.app_id with
        | false => simp
        | true =>
          cases hs : is_suspended m.ctx w.app_id with
          | true => simp
          | false =>
            exfalso
            apply hq
            refine ⟨hf, ht, fun hmem => ?_⟩
            have := (is_suspended_iff _ _).2 hmem
            rw [hs] at this
            exact absurd this (by simp)
    simp only [this, if_neg hq]
    simp

/-- What a completed pass of `suspend_all_apps` over the windows `ws` does. -/
theorem suspend_fold_spec (harvest : pid_t → Option (List pid_t)) (ws : List window_info) :
    ∀ m : Machine,
      (ws.foldl (suspend_window harvest) m).ctx.proc_names = m.ctx.proc_names ∧
      (ws.foldl (suspend_window harvest) m).timer_armed = m.timer_armed ∧
      (ws.foldl (suspend_window harvest) m).timer_ticks = m.timer_ticks ∧
      (∀ a, a ∈ (ws.foldl (suspend_window harvest) m).ctx.suspended_procs ↔
        a ∈ m.ctx.suspended_procs ∨
          ∃ w ∈ ws, w.app_id = a ∧ w.focused = false ∧ should_suspend m.ctx a = true ∧
            (harvest w.pid).isSome = true) ∧
      (∃ extra, (ws.foldl (suspend_window harvest) m).kills = m.kills ++ extra ∧
        (∀ k ∈ extra, ∃ w ∈ ws, w.focused = false ∧ should_suspend m.ctx w.app_id = true ∧
            w.app_id ∉ m.ctx.suspended_procs ∧ k ∈ sent_by harvest w.pid SIGSTOP) ∧
        (∀ a, a ∉ m.ctx.suspended_procs →
          a ∈ (ws.foldl (suspend_window harvest) m).ctx.suspended_procs →
          ∃ w ∈ ws, w.app_id = a ∧ w.focused = false ∧ (harvest w.pid).isSome = true ∧
            ∀ k ∈ sent_by harvest w.pid SIGSTOP, k ∈ extra)) := by
  induction ws with
  | nil => intro m; exact ⟨rfl, rfl, rfl, by simp, ⟨[], by simp⟩⟩
  | cons w ws ih =>
    intro m
    rw [List.foldl_cons]
    obtain ⟨h1, h2, h2b, h3, ⟨extra, h4, h5, h6⟩⟩ := ih (suspend_window harvest m w)
    have hstep := suspend_window_eq harvest m w
    have hn : (suspend_window harvest m w).ctx.proc_names = m.ctx.proc_names := by
      rw [hstep]; split <;> rfl
    have hss : ∀ a, should_suspend (suspend_window harvest m w).ctx a = should_suspend m.ctx a := by
      intro a; simp [should_suspend, hn]
    have hta : (suspend_window harvest m w).timer_armed = m.timer_armed := by
      rw [hstep]; split <;> rfl
    have htt : (suspend_window harvest m w).timer_ticks = m.timer_ticks := by
      rw [hstep]; split <;> rfl
    by_cases hq : w.focused = false ∧ should_suspend m.ctx w.app_id = true ∧
        w.app_id ∉ m.ctx.suspended_procs
    · have hk : (suspend_window harvest m w).kills =
          m.kills ++ sent_by harvest w.pid SIGSTOP := by rw [hstep, if_pos hq]
      have hsu : ∀ a, a ∈ (suspend_window harvest m w).ctx.suspended_procs ↔
          a ∈ m.ctx.suspended_procs ∨ (a = w.app_id ∧ (harvest w.pid).isSome = true) := by
        intro a
        rw [hstep, if_pos hq]
        cases hh : (harvest w.pid).isSome <;> simp
      refine ⟨h1.trans hn, h2.trans hta, h2b.trans htt, ?_, ?_⟩
      · intro a
        rw [h3 a, hsu a]
        simp only [hss, List.mem_cons, exists_eq_or_imp]
        constructor
        · rintro ((ha | ⟨rfl, hh⟩) | hex)
          · exact Or.inl ha
          · exact Or.inr (Or.inl ⟨rfl, hq.1, hq.2.1, hh⟩)
          · exact Or.inr (Or.inr hex)
        · rintro (ha | ⟨rfl, _, _, hh⟩ | hex)
          · exact Or.inl (Or.inl ha)
          · exact Or.inl (Or.inr ⟨rfl, hh⟩)
          · exact Or.inr hex
      · refine ⟨sent_by harvest w.pid SIGSTOP ++ extra, ?_, ?_, ?_⟩
        · rw [h4, hk, List.append_assoc]
        · intro k hk2
          rcases List.mem_append.1 hk2 with e | e
          · exact ⟨w, by simp, hq.1, hq.2.1, hq.2.2, e⟩
          · obtain ⟨w2, hw2, hf, ht, hns, hkm⟩ := h5 k e
            refine ⟨w2, by simp [hw2], hf, by rw [← hss]; exact ht, ?_, hkm⟩
            intro hmem
            exact hns ((hsu _).2 (Or.inl hmem))
        · intro a ha hfin
          by_cases ha1 : a ∈ (suspend_window harvest m w).ctx.suspended_procs
          · rcases (hsu a).1 ha1 with e | ⟨rfl, hh⟩
            · exact absurd e ha
            · exact ⟨w, by simp, rfl, hq.1, hh, fun k hk2 => List.mem_append.2 (Or.inl hk2)⟩
          · obtain ⟨w2, hw2, e1, e2, e3, e4⟩ := h6 a ha1 hfin
            exact ⟨w2, by simp [hw2], e1, e2, e3,
              fun k hk2 => List.mem_append.2 (Or.inr (e4 k hk2))⟩
    · have hm : suspend_window harvest m w = m := by rw [hstep, if_neg hq]
      rw [hm] at h1 h2 h2b h3 h4 h5 h6 ⊢
      refine ⟨h1, h2, h2b, ?_, ?_⟩
      · intro a
        rw [h3 a]
        simp only [List.mem_cons, exists_eq_or_imp]
        constructor
        · rintro (ha | hex)
          · exact Or.inl ha
          · exact Or.inr (Or.inr hex)
        · rintro (ha | ⟨rfl, hf, ht, _⟩ | hex)
          · exact Or.inl ha
          · by_cases hmem : w.app_id ∈ m.ctx.suspended_procs
            · exact Or.inl hmem
            · exact absurd ⟨hf, ht, hmem⟩ hq
          · exact Or.inr hex
      · refine ⟨extra, h4, ?_, ?_⟩
        · intro k hk2
          obtain ⟨w2, hw2, r⟩ := h5 k hk2
          exact ⟨w2, by simp [hw2], r⟩
        · intro a ha hfin
          obtain ⟨w2, hw2, r⟩ := h6 a ha hfin
          exact ⟨w2, by simp [hw2], r⟩


/-! ### Engine: the focus event handler -/

/-- C4 (the claim fails): `app` has two windows, owned by pids 10 and 20.
`suspend_all_apps` stops pid 10 (the first window) and marks `app` suspended; the focus
event then names `app` with pid 20. The handler sends the continue signal to pid 20 and
clears the mark: pid 10, which was stopped, is sent no continue signal. -/
theorem handle_window_event_misses_stopped_pid :
    suspend_all_apps harvest_self 3 machine_app_running tree_two_windows
      = some (.ok machine_app_stopped_10) ∧
    (10, SIGSTOP) ∈ machine_app_stopped_10.kills ∧
    is_suspended machine_app_stopped_10.ctx "app" = true ∧
    get_focused_app focus_event_app_20 = .ok (some "app", 20) ∧
    (∃ m2, handle_window_event harvest_self machine_app_stopped_10 focus_event_app_20
        = .ok m2 ∧
      m2.kills = [(10, SIGSTOP), (20, SIGCONT)] ∧
      (10, SIGCONT) ∉ m2.kills ∧
      is_suspended m2.ctx "app" = false) := by
  refine ⟨by decide, by decide, by decide, rfl, ?_⟩
  exact ⟨{ ctx := { proc_names := ["app"], suspended_procs := [] },
           timer_armed := false, timer_ticks := 0,
           kills := [(10, SIGSTOP), (20, SIGCONT)] }, by decide, rfl, by decide, by decide⟩

/-- C4 (amended): on a focus event naming a tracked application `app_id` that is in the
suspended set, the handler asks for the descendants of the pid the event carries. When
that harvest succeeds, it sends exactly one continue signal per entry of the returned
array (up to its zero terminator) and nothing else, removes `app_id` from the suspended
set and leaves the other applications as they were; when it fails, it sends nothing and
`app_id` stays suspended. In both cases the timer is disarmed. -/
theorem handle_window_event_resumes (harvest : pid_t → Option (List pid_t)) (m : Machine)
    (resp : json_t) (app_id : String) (pid : pid_t)
    (hf : get_focused_app resp = .ok (some app_id, pid))
    (ht : should_suspend m.ctx app_id = true)
    (hs : is_suspended m.ctx app_id = true) :
    (∀ pids, harvest pid = some pids →
      ∃ m2, handle_window_event harvest m resp = .ok m2 ∧
        m2.kills = m.kills ++ (pids.takeWhile (fun p => p ≠ 0)).map (fun p => (p, SIGCONT)) ∧
        stops m2.kills = stops m.kills ∧
        is_suspended m2.ctx app_id = false ∧
        (∀ b, b ≠ app_id → is_suspended m2.ctx b = is_suspended m.ctx b) ∧
        m2.timer_armed = false) ∧
    (harvest pid = none → handle_window_event harvest m resp = .ok (cancel_timer m)) := by
  have hs2 : is_suspended (cancel_timer m).ctx app_id = true := hs
  have ht2 : should_suspend m.ctx app_id = true := ht
  constructor
  · intro pids hp
    refine ⟨(resume_app harvest (cancel_timer m) app_id pid).2, ?_, ?_, ?_, ?_, ?_, ?_⟩
    · simp [handle_window_event, hf, ht2, hs2]
    · simp [resume_app_eq, sent_by, hp, cancel_timer]
    · have hc : ∀ k ∈ sent_by harvest pid SIGCONT, k.2 = SIGCONT :=
        fun k hk => ((mem_sent_by _ _ _ _).1 hk).1
      simp only [resume_app_eq, cancel_timer, stops_append,
        stops_eq_nil_of_cont _ hc, List.append_nil]
    · cases h : is_suspended (resume_app harvest (cancel_timer m) app_id pid).2.ctx app_id with
      | false => rfl
      | true =>
        rw [is_suspended_iff] at h
        simp [resume_app_eq, hp, cancel_timer] at h
    · intro b hb
      have : ∀ x y : Bool, (x = true ↔ y = true) → x = y := by
        intro x y; cases x <;> cases y <;> simp
      apply this
      rw [is_suspended_iff, is_suspended_iff]
      simp [resume_app_eq, hp, cancel_timer, hb]
    · simp [resume_app_eq, cancel_timer]
  · intro hp
    have : (resume_app harvest (cancel_timer m) app_id pid).2 = cancel_timer m := by
      simp [resume_app_eq, sent_by, hp]
    simp [handle_window_event, hf, ht2, hs2, this]

/-- C4 (amended) at the state in which `app` is suspended and the event names `app`
with pid 20. -/
theorem handle_window_event_resumes_witness :
    (∀ pids, harvest_self 20 = some pids →
      ∃ m2, handle_window_event harvest_self machine_app_stopped_10 focus_event_app_20
          = .ok m2 ∧
        m2.kills = machine_app_stopped_10.kills ++
          (pids.takeWhile (fun p => p ≠ 0)).map (fun p => (p, SIGCONT)) ∧
        stops m2.kills = stops machine_app_stopped_10.kills ∧
        is_suspended m2.ctx "app" = false ∧
        (∀ b, b ≠ "app" → is_suspended m2.ctx b = is_suspended machine_app_stopped_10.ctx b) ∧
        m2.timer_armed = false) ∧
    (harvest_self 20 = none →
      handle_window_event harvest_self machine_app_stopped_10 focus_event_app_20
        = .ok (cancel_timer machine_app_stopped_10)) :=
  handle_window_event_resumes harvest_self machine_app_stopped_10 focus_event_app_20
    "app" 20 rfl (by decide) (by decide)


/-! ### Engine: the suspension pass -/

/-- C5 (the claim fails): `app` and `other` are tracked and running. `app` has an
unfocused and a focused window (pid 10), `other` an unfocused window (pid 20) whose
harvest fails. `suspend_all_apps` stops pid 10 and marks `app` suspended although `app`
has the focused window, and it leaves `other` unmarked and unsignalled although `other`
is tracked, not focused and not suspended. -/
theorem suspend_all_apps_not_per_application :
    sway_windows 4 (get_sway_tree_iter tree_focused_app)
      = some (.ok [⟨"app", 10, false⟩, ⟨"app", 10, true⟩, ⟨"other", 20, false⟩]) ∧
    (∃ m2, suspend_all_apps harvest_only_10 4 machine_two_apps tree_focused_app
        = some (.ok m2) ∧
      m2.kills = [(10, SIGSTOP)] ∧
      is_suspended m2.ctx "app" = true ∧
      is_suspended m2.ctx "other" = false) ∧
    should_suspend machine_two_apps.ctx "other" = true ∧
    is_suspended machine_two_apps.ctx "other" = false := by
  refine ⟨by decide, ?_, by decide, by decide⟩
  exact ⟨{ ctx := { proc_names := ["app", "other"], suspended_procs := ["app"] },
           timer_armed := false, timer_ticks := 0, kills := [(10, SIGSTOP)] },
         by decide, rfl, by decide, by decide⟩

/-- C5 (amended): with enough fuel `suspend_all_apps` ends; when it returns normally,
with `ws` the windows the walk of the tree yields: an application is in the suspended
set afterwards exactly when it was before or it is tracked and has an unfocused window
whose descendant harvest succeeds; every signal sent is a stop signal to an entry of the
array harvested for an unfocused window of a tracked application that was not suspended
before; and every application that became suspended has such a window all of whose
harvested entries were sent the stop signal. Windows that are focused, untracked or of
an application already suspended cause no signal and no change. -/
theorem suspend_all_apps_windows (harvest : pid_t → Option (List pid_t))
    (m : Machine) (tree : json_t) :
    ∃ N, ∀ fuel, N ≤ fuel → ∃ o, suspend_all_apps harvest fuel m tree = some o ∧
      ∀ m2, o = .ok m2 →
        ∃ ws, sway_windows fuel (get_sway_tree_iter tree) = some (.ok ws) ∧
          (∀ a, is_suspended m2.ctx a = true ↔
            (is_suspended m.ctx a = true ∨
              ∃ w ∈ ws, w.app_id = a ∧ w.focused = false ∧ should_suspend m.ctx a = true ∧
                (harvest w.pid).isSome = true)) ∧
          ∃ extra, m2.kills = m.kills ++ extra ∧
            (∀ k ∈ extra, k.2 = SIGSTOP ∧
              ∃ w ∈ ws, w.focused = false ∧ should_suspend m.ctx w.app_id = true ∧
                is_suspended m.ctx w.app_id = false ∧
                ∃ pids, harvest w.pid = some pids ∧
                  k.1 ∈ pids.takeWhile (fun p => p ≠ 0)) ∧
            (∀ a, is_suspended m.ctx a = false → is_suspended m2.ctx a = true →
              ∃ w ∈ ws, w.app_id = a ∧ w.focused = false ∧
                ∃ pids, harvest w.pid = some pids ∧
                  ∀ p ∈ pids.takeWhile (fun p => p ≠ 0), (p, SIGSTOP) ∈ extra) := by
  refine ⟨iter_weight (get_sway_tree_iter tree) + 1, fun fuel hf => ?_⟩
  obtain ⟨o, ho⟩ := while_iter_sway_apps_terminates (suspend_window harvest) fuel m
    (get_sway_tree_iter tree) (by omega)
  refine ⟨o, ho, fun m2 hm2 => ?_⟩
  subst hm2
  obtain ⟨ws, hws, hfold⟩ := while_iter_sway_apps_ok _ _ _ _ _ ho
  obtain ⟨_, _, _, h3, ⟨extra, h4, h5, h6⟩⟩ := suspend_fold_spec harvest ws m
  rw [← hfold] at h3 h4 h6
  have hnot : ∀ (c : context) (a : String), is_suspended c a = false ↔ a ∉ c.suspended_procs := by
    intro c a
    rw [← is_suspended_iff]
    cases is_suspended c a <;> simp
  refine ⟨ws, hws, ?_, extra, h4, ?_, ?_⟩
  · intro a; rw [is_suspended_iff, is_suspended_iff]; exact h3 a
  · intro k hk
    obtain ⟨w, hw, hf, ht, hns, hkm⟩ := h5 k hk
    obtain ⟨e1, pids, e2, e3⟩ := (mem_sent_by _ _ _ _).1 hkm
    exact ⟨e1, w, hw, hf, ht, (hnot _ _).2 hns, pids, e2, e3⟩
  · intro a ha hfin
    obtain ⟨w, hw, e1, e2, e3, e4⟩ := h6 a ((hnot _ _).1 ha) ((is_suspended_iff _ _).1 hfin)
    cases hh : harvest w.pid with
    | none => simp [hh] at e3
    | some pids =>
      refine ⟨w, hw, e1, e2, pids, hh, fun p hp => ?_⟩
      exact e4 (p, SIGSTOP) ((mem_sent_by _ _ _ _).2 ⟨rfl, pids, hh, hp⟩)

/-- C5 (amended) at the tree in which `app` has an unfocused and a focused window and
the harvest of the window of `other` fails. -/
theorem suspend_all_apps_windows_witness :
    (∃ N, ∀ fuel, N ≤ fuel →
      ∃ o, suspend_all_apps harvest_only_10 fuel machine_two_apps tree_focused_app = some o ∧
      ∀ m2, o = .ok m2 →
        ∃ ws, sway_windows fuel (get_sway_tree_iter tree_focused_app) = some (.ok ws) ∧
          (∀ a, is_suspended m2.ctx a = true ↔
            (is_suspended machine_two_apps.ctx a = true ∨
              ∃ w ∈ ws, w.app_id = a ∧ w.focused = false ∧
                should_suspend machine_two_apps.ctx a = true ∧
                (harvest_only_10 w.pid).isSome = true)) ∧
          ∃ extra, m2.kills = machine_two_apps.kills ++ extra ∧
            (∀ k ∈ extra, k.2 = SIGSTOP ∧
              ∃ w ∈ ws, w.focused = false ∧ should_suspend machine_two_apps.ctx w.app_id = true ∧
                is_suspended machine_two_apps.ctx w.app_id = false ∧
                ∃ pids, harvest_only_10 w.pid = some pids ∧
                  k.1 ∈ pids.takeWhile (fun p => p ≠ 0)) ∧
            (∀ a, is_suspended machine_two_apps.ctx a = false →
              is_suspended m2.ctx a = true →
              ∃ w ∈ ws, w.app_id = a ∧ w.focused = false ∧
                ∃ pids, harvest_only_10 w.pid = some pids ∧
                  ∀ p ∈ pids.takeWhile (fun p => p ≠ 0), (p, SIGSTOP) ∈ extra)) ∧
    suspend_all_apps harvest_only_10 4 machine_two_apps tree_focused_app
      = some (.ok { ctx := { proc_names := ["app", "other"], suspended_procs := ["app"] },
                    timer_armed := false, timer_ticks := 0, kills := [(10, SIGSTOP)] }) :=
  ⟨suspend_all_apps_windows harvest_only_10 machine_two_apps tree_focused_app, by decide⟩

/-! ### Engine: the loop of `main` -/

theorem handle_window_event_disarmed (harvest : pid_t → Option (List pid_t)) (m : Machine)
    (resp : json_t)
    (ha : m.timer_armed = false) (hk : m.timer_ticks = 0)
    (hu : ∀ app_id pid, get_focused_app resp = .ok (some app_id, pid) →
      should_suspend m.ctx app_id = false →
      m.ctx.proc_names.length = m.ctx.suspended_procs.length) :
    (handle_window_event harvest m resp).state.timer_armed = false ∧
    (handle_window_event harvest m resp).state.timer_ticks = 0 ∧
    stops (handle_window_event harvest m resp).state.kills = stops m.kills := by
  unfold handle_window_event
  cases hf : get_focused_app resp with
  | error e => exact ⟨ha, hk, rfl⟩
  | ok r =>
    obtain ⟨app, pid⟩ := r
    cases app with
    | none => exact ⟨ha, hk, rfl⟩
    | some app_id =>
      cases ht : should_suspend m.ctx app_id with
      | true =>
        simp only [ht, if_true]
        by_cases hs : is_suspended (cancel_timer m).ctx app_id = true
        · simp only [hs, if_true, Outcome.state, resume_app_eq]
          have hc : ∀ k ∈ sent_by harvest pid SIGCONT, k.2 = SIGCONT :=
            fun k hk => ((mem_sent_by _ _ _ _).1 hk).1
          refine ⟨by simp [cancel_timer], by simp [cancel_timer], ?_⟩
          simp only [cancel_timer, stops_append, stops_eq_nil_of_cont _ hc, List.append_nil]
        · simp only [hs, Outcome.state]
          exact ⟨by simp [cancel_timer], by simp [cancel_timer], by simp [cancel_timer]⟩
      | false =>
        have := hu app_id pid hf ht
        simp only [ht, Bool.false_eq_true, if_false, this, ne_eq, not_true_eq_false,
          Outcome.state]
        exact ⟨ha, hk, trivial⟩

/-- While the timer is disarmed, an iteration of the loop that does not call
`start_timer` sends no stop signal and leaves the timer disarmed. -/
theorem main_loop_step_disarmed (fuel : Nat) (m : Machine) (p : Poll)
    (ha : m.timer_armed = false) (hk : m.timer_ticks = 0)
    (hu : starts_timer m p = false) :
    ∃ o, main_loop_step fuel m p = some o ∧
      o.state.timer_armed = false ∧
      o.state.timer_ticks = 0 ∧ stops o.state.kills = stops m.kills := by
  unfold main_loop_step
  simp only [ha, Bool.and_false, Bool.false_eq_true, if_false, hk, Nat.lt_irrefl,
    decide_False]
  cases he : p.event with
  | none => exact ⟨_, rfl, ha, hk, rfl⟩
  | some e =>
    cases e with
    | none => exact ⟨_, rfl, ha, hk, rfl⟩
    | some resp =>
      have hu2 : ∀ app_id pid, get_focused_app resp = .ok (some app_id, pid) →
          should_suspend m.ctx app_id = false →
          m.ctx.proc_names.length = m.ctx.suspended_procs.length := by
        intro app_id pid hf ht
        simp only [starts_timer, he, hf, ht, Bool.not_false, Bool.true_and, ne_eq,
          decide_not, Bool.not_eq_false', decide_eq_true_eq] at hu
        exact hu
      have h := handle_window_event_disarmed p.harvest m resp ha hk hu2
      simp only
      cases hh : handle_window_event p.harvest m resp with
      | ok m2 => rw [hh] at h; exact ⟨_, rfl, h⟩
      | died m2 => rw [hh] at h; exact ⟨_, rfl, h⟩
      | hung m2 => rw [hh] at h; exact ⟨_, rfl, h⟩

theorem main_loop_disarmed (fuel : Nat) (ps : List Poll) :
    ∀ m : Machine, m.timer_armed = false →
      m.timer_ticks = 0 → never_starts_timer fuel m ps →
      ∃ o, main_loop fuel m ps = some o ∧ o.state.timer_armed = false ∧
        stops o.state.kills = stops m.kills := by
  induction ps with
  | nil => intro m ha _ _; exact ⟨_, rfl, ha, rfl⟩
  | cons p ps ih =>
    intro m ha hk hu
    obtain ⟨hu1, hu2⟩ := hu
    obtain ⟨o, ho, h2, h3, h4⟩ := main_loop_step_disarmed fuel m p ha hk hu1
    unfold main_loop
    rw [ho]
    cases o with
    | ok m2 =>
      obtain ⟨o2, ho2, h5, h6⟩ := ih m2 h2 h3 (hu2 m2 ho)
      exact ⟨o2, ho2, h5, h6.trans h4⟩
    | died m2 => exact ⟨_, rfl, h2, h4⟩
    | hung m2 => exact ⟨_, rfl, h2, h4⟩

/-- C6: when an iteration of the loop of `main` handles a focus event naming a tracked
application that is not suspended while the debounce timer is armed, the timer is
disarmed and no stop signal is sent in that iteration (also when the timer expired
before `poll` returned: its expiration is discarded by `cancel_timer`), nor in any later
iteration, for as long as no iteration arms the timer again, which only a focus event
naming an untracked application does. -/
theorem refocus_cancels_pending_suspension (fuel : Nat) (m : Machine) (p : Poll)
    (resp : json_t) (app_id : String) (pid : pid_t)
    (harmed : m.timer_armed = true)
    (hev : p.event = some (some resp))
    (hf : get_focused_app resp = .ok (some app_id, pid))
    (ht : should_suspend m.ctx app_id = true)
    (hs : is_suspended m.ctx app_id = false) :
    ∃ o, main_loop_step fuel m p = some o ∧
      o.state.timer_armed = false ∧ stops o.state.kills = stops m.kills ∧
      ∀ m2, o = .ok m2 → ∀ ps : List Poll, never_starts_timer fuel m2 ps →
        ∃ o2, main_loop fuel m2 ps = some o2 ∧ o2.state.timer_armed = false ∧
          stops o2.state.kills = stops m.kills := by
  have key : ∀ m0 : Machine, m0.ctx = m.ctx → m0.kills = m.kills →
      handle_window_event p.harvest m0 resp = .ok (cancel_timer m0) := by
    intro m0 h1 _
    have ht0 : should_suspend m0.ctx app_id = true := by rw [h1]; exact ht
    have hs0 : is_suspended (cancel_timer m0).ctx app_id = false := by
      show is_suspended m0.ctx app_id = false
      rw [h1]; exact hs
    simp [handle_window_event, hf, ht0, hs0]
  have fin : ∀ o : Outcome Machine, o.state.timer_armed = false →
      o.state.timer_ticks = 0 → o.state.kills = m.kills →
      o.state.timer_armed = false ∧ stops o.state.kills = stops m.kills ∧
      ∀ m2, o = .ok m2 → ∀ ps : List Poll, never_starts_timer fuel m2 ps →
        ∃ o2, main_loop fuel m2 ps = some o2 ∧ o2.state.timer_armed = false ∧
          stops o2.state.kills = stops m.kills := by
    intro o h2 h3 h4
    refine ⟨h2, by rw [h4], fun m2 e ps hps => ?_⟩
    subst e
    obtain ⟨o2, ho2, h5, h6⟩ := main_loop_disarmed fuel ps m2 h2 h3 hps
    exact ⟨o2, ho2, h5, by rw [h6, show m2.kills = m.kills from h4]⟩
  unfold main_loop_step
  simp only [hev, harmed, Bool.and_true]
  by_cases hfire : p.timer_fires = true
  · simp only [hfire, if_true]
    rw [key { m with timer_armed := false, timer_ticks := m.timer_ticks + 1 } rfl rfl]
    simp only [cancel_timer, Nat.lt_irrefl, if_false, Nat.zero_lt_succ, decide_True, if_true,
      Bool.false_eq_true]
    exact ⟨_, rfl, fin _ rfl rfl rfl⟩
  · have hfire2 : p.timer_fires = false := by
      cases h : p.timer_fires with
      | false => rfl
      | true => exact absurd h hfire
    simp only [hfire2, Bool.false_eq_true, if_false]
    rw [key m rfl rfl]
    simp only [cancel_timer, Nat.lt_irrefl, if_false, Bool.false_eq_true]
    by_cases hk : 0 < m.timer_ticks
    · simp only [hk, decide_True, if_true]
      exact ⟨_, rfl, fin _ rfl rfl rfl⟩
    · simp only [hk, decide_False, Bool.false_eq_true, if_false]
      exact ⟨_, rfl, fin _ rfl rfl rfl⟩

/-- C6 at an iteration in which the focus event for the tracked `app` is read while the
armed timer expires. -/
theorem refocus_cancels_pending_suspension_witness :
    ∃ o, main_loop_step 3 machine_timer_armed poll_refocus_and_expiry = some o ∧
      o.state.timer_armed = false ∧ stops o.state.kills = stops machine_timer_armed.kills ∧
      ∀ m2, o = .ok m2 → ∀ ps : List Poll, never_starts_timer 3 m2 ps →
        ∃ o2, main_loop 3 m2 ps = some o2 ∧ o2.state.timer_armed = false ∧
          stops o2.state.kills = stops machine_timer_armed.kills :=
  refocus_cancels_pending_suspension 3 machine_timer_armed poll_refocus_and_expiry
    focus_event_app_20 "app" 20 rfl rfl rfl (by decide) (by decide)

/-! ### Arena: allocation -/

theorem arena_alloc_skip_spec (size : Nat) : ∀ (l : List Region) (e : Nat), l ≠ [] →
    e ≤ arena_alloc_skip size l e ∧ arena_alloc_skip size l e < e + l.length ∧
    ((∃ r, l[arena_alloc_skip size l e - e]? = some r ∧
        ¬ (r.count + size) % SIZE_MOD > r.capacity) ∨
      arena_alloc_skip size l e + 1 = e + l.length) := by
  intro l
  induction l with
  | nil => intro e h; exact absurd rfl h
  | cons r rest ih =>
    intro e _
    cases rest with
    | nil => simp [arena_alloc_skip]
    | cons r2 rest2 =>
      by_cases hfit : (r.count + size) % SIZE_MOD > r.capacity
      · have h := ih (e + 1) (by simp)
        simp only [arena_alloc_skip, hfit, if_true]
        obtain ⟨h1, h2, h3⟩ := h
        refine ⟨by omega, by simp only [List.length_cons] at h2 ⊢; omega, ?_⟩
        rcases h3 with ⟨x, hx, hx2⟩ | h3
        · left
          refine ⟨x, ?_, hx2⟩
          have e1 : arena_alloc_skip size (r2 :: rest2) (e + 1) - e =
              (arena_alloc_skip size (r2 :: rest2) (e + 1) - (e + 1)) + 1 := by omega
          rw [e1, List.getElem?_cons_succ]
          exact hx
        · right; simp only [List.length_cons] at h3 ⊢; omega
      · simp only [arena_alloc_skip, hfit, if_false]
        refine ⟨le_refl _, by simp, Or.inl ⟨r, by simp, hfit⟩⟩

theorem words_lt (n : Nat) : ((n + WORD - 1) % SIZE_MOD) / WORD < 2 ^ 61 := by
  have : (n + WORD - 1) % SIZE_MOD < SIZE_MOD := Nat.mod_lt _ (by decide)
  simp only [SIZE_MOD, WORD] at this ⊢
  omega

/-- The two ways `arena_alloc` succeeds on a well-formed arena: it bumps the mark of
a region at or after `end` into which the request fits, or it appends a new region. -/
theorem arena_alloc_cases (a : Arena) (n : Nat) (p : Ptr) (a2 : Arena)
    (h : arena_alloc a n = some (p, a2)) (hwf : a.wf) :
    (∃ e0 e r, a.last = some e0 ∧ e0 ≤ e ∧ a.regions[e]? = some r ∧
      r.count + ((n + WORD - 1) % SIZE_MOD) / WORD ≤ r.capacity ∧
      p = ⟨.region e, WORD * r.count⟩ ∧
      a2 = { regions := a.regions.set e
               { r with count := r.count + ((n + WORD - 1) % SIZE_MOD) / WORD },
             last := some e }) ∨
    (REGION_HEADER + WORD * region_capacity_for (((n + WORD - 1) % SIZE_MOD) / WORD)
        < SIZE_MOD ∧
      p = ⟨.region a.regions.length, 0⟩ ∧
      a2 = { regions := a.regions ++
               [⟨((n + WORD - 1) % SIZE_MOD) / WORD,
                 region_capacity_for (((n + WORD - 1) % SIZE_MOD) / WORD)⟩],
             last := some a.regions.length }) := by
  have hsz := words_lt n
  unfold arena_alloc at h
  simp only at h
  generalize ((n + WORD - 1) % SIZE_MOD) / WORD = size at hsz h ⊢
  have hmod : ∀ c : Nat, c < 2 ^ 61 → (c + size) % SIZE_MOD = c + size := by
    intro c hc; apply Nat.mod_eq_of_lt; simp only [SIZE_MOD]; omega
  obtain ⟨hw1, hw2, hw3⟩ := hwf
  have hcap : ∀ r ∈ a.regions, r.count < 2 ^ 61 := by
    intro r hr
    have := hw3 r hr
    simp only [REGION_HEADER, WORD, SIZE_MOD] at this
    omega
  cases hl : a.last with
  | none =>
    have hnil := hw1 hl
    simp only [hl, hnil, if_true] at h
    unfold new_region at h
    by_cases hb : REGION_HEADER + WORD * region_capacity_for size < SIZE_MOD
    · right
      simp only [hb, if_true, List.drop_zero, arena_alloc_skip, List.getElem?_cons_zero,
        Nat.zero_add] at h
      have hm0 : size % SIZE_MOD = size := by
        have := hmod 0 (by decide)
        simpa using this
      have hfit : ¬ size % SIZE_MOD > region_capacity_for size := by
        rw [hm0]
        unfold region_capacity_for
        split <;> omega
      simp only [hfit, if_false, Option.some.injEq, Prod.mk.injEq] at h
      obtain ⟨h1, h2⟩ := h
      refine ⟨hb, ?_, ?_⟩
      · rw [← h1, hnil]; simp [WORD]
      · rw [← h2, hnil, hm0]; simp
    · simp [hb] at h
  | some e0 =>
    simp only [hl] at h
    have he0 := hw2 e0 hl
    have hne : a.regions.drop e0 ≠ [] := by
      intro hd
      have := congrArg List.length hd
      simp at this
      omega
    obtain ⟨s1, s2, s3⟩ := arena_alloc_skip_spec size (a.regions.drop e0) e0 hne
    generalize arena_alloc_skip size (a.regions.drop e0) e0 = e at h s1 s2 s3
    have hlen : e < a.regions.length := by
      simp only [List.length_drop] at s2; omega
    have hget : a.regions[e]? = some a.regions[e] := List.getElem?_eq_getElem hlen
    rw [hget] at h
    simp only at h
    have hmem : a.regions[e] ∈ a.regions := List.getElem_mem hlen
    by_cases hfit : (a.regions[e].count + size) % SIZE_MOD > a.regions[e].capacity
    · right
      simp only [hfit, if_true] at h
      by_cases hlast : e + 1 = a.regions.length
      · simp only [hlast, if_true] at h
        unfold new_region at h
        by_cases hb : REGION_HEADER + WORD * region_capacity_for size < SIZE_MOD
        · simp only [hb, if_true, Option.some.injEq, Prod.mk.injEq] at h
          obtain ⟨h1, h2⟩ := h
          refine ⟨hb, ?_, ?_⟩
          · rw [← h1]; simp [WORD]
          · rw [← h2, hmod 0 (by decide)]; simp
        · simp [hb] at h
      · simp [hlast] at h
    · left
      simp only [hfit, if_false, Option.some.injEq, Prod.mk.injEq] at h
      obtain ⟨h1, h2⟩ := h
      rw [hmod _ (hcap _ hmem)] at hfit h2
      exact ⟨e0, e, a.regions[e], rfl, s1, hget, by omega, h1.symm, h2.symm⟩


/-! ### Arena: reachable states -/

theorem region_capacity_for_ge (size : Nat) :
    size ≤ region_capacity_for size ∧ REGION_DEFAULT_CAPACITY ≤ region_capacity_for size := by
  unfold region_capacity_for
  split <;> constructor <;> omega

theorem arena_alloc_inv (a : Arena) (ms : List Arena_Mark) (n : Nat) (p : Ptr) (a2 : Arena)
    (h : arena_alloc a n = some (p, a2))
    (hwf : a.wf) (ht : a.tail_unused) (hm : ∀ m ∈ ms, m.fits a) :
    a2.wf ∧ a2.tail_unused ∧ ∀ m ∈ ms, m.fits a2 := by
  rcases arena_alloc_cases a n p a2 h hwf with
    ⟨e0, e, r, hl, hle, hget, hfit, _, ha2⟩ | ⟨hb, _, ha2⟩
  · obtain ⟨_, hw2, hw3⟩ := hwf
    have hlen : e < a.regions.length := (List.getElem?_eq_some.1 hget).1
    have hrm : r ∈ a.regions := List.getElem?_mem hget
    subst ha2
    refine ⟨⟨by simp, ?_, ?_⟩, ?_, ?_⟩
    · intro e1 h1
      simp only [Option.some.injEq] at h1
      subst h1; simpa using hlen
    · intro x hx
      rcases List.mem_or_eq_of_mem_set hx with h1 | h1
      · exact hw3 x h1
      · subst h1; exact ⟨hfit, (hw3 r hrm).2⟩
    · intro e1 h1 j x hj hx
      simp only [Option.some.injEq] at h1
      subst h1
      rw [List.getElem?_set_ne (by omega)] at hx
      exact ht e0 hl j x (by omega) hx
    · intro m hmm i hi
      obtain ⟨r0, h1, h2⟩ := hm m hmm i hi
      by_cases hie : e = i
      · subst hie
        rw [hget] at h1
        simp only [Option.some.injEq] at h1
        subst h1
        refine ⟨{ count := r.count + ((n + WORD - 1) % SIZE_MOD) / WORD,
                  capacity := r.capacity }, ?_, h2⟩
        simp [List.getElem?_set, hlen]
      · exact ⟨r0, by simp only [List.getElem?_set_ne hie]; exact h1, h2⟩
  · obtain ⟨_, _, hw3⟩ := hwf
    subst ha2
    refine ⟨⟨by simp, ?_, ?_⟩, ?_, ?_⟩
    · intro e1 h1
      simp only [Option.some.injEq] at h1
      subst h1; simp
    · intro x hx
      rcases List.mem_append.1 hx with h1 | h1
      · exact hw3 x h1
      · simp only [List.mem_singleton] at h1
        subst h1
        exact ⟨(region_capacity_for_ge _).1, hb⟩
    · intro e1 h1 j x hj hx
      simp only [Option.some.injEq] at h1
      subst h1
      rw [List.getElem?_eq_none (by simp; omega)] at hx
      exact absurd hx (by simp)
    · intro m hmm i hi
      obtain ⟨r0, h1, h2⟩ := hm m hmm i hi
      have hlen : i < a.regions.length := (List.getElem?_eq_some.1 h1).1
      exact ⟨r0, by rw [List.getElem?_append_left hlen]; exact h1, h2⟩

theorem arena_reset_inv (a : Arena) (ms : List Arena_Mark)
    (hwf : a.wf) (hm : ∀ m ∈ ms, m.fits a) :
    (arena_reset a).wf ∧ (arena_reset a).tail_unused ∧ ∀ m ∈ ms, m.fits (arena_reset a) := by
  obtain ⟨_, _, hw3⟩ := hwf
  unfold arena_reset
  refine ⟨⟨?_, ?_, ?_⟩, ?_, ?_⟩
  · intro h
    by_cases hn : a.regions = []
    · simp [hn]
    · simp [hn] at h
  · intro e h
    by_cases hn : a.regions = []
    · simp [hn] at h
    · simp only [hn, if_false, Option.some.injEq] at h
      subst h
      simp only [List.length_map]
      exact List.length_pos.2 hn
  · intro x hx
    simp only [List.mem_map] at hx
    obtain ⟨r, hr, rfl⟩ := hx
    exact ⟨Nat.zero_le _, (hw3 r hr).2⟩
  · intro e _ j x _ hx
    simp only [List.getElem?_map, Option.map_eq_some'] at hx
    obtain ⟨r, _, rfl⟩ := hx
    rfl
  · intro m hmm i hi
    obtain ⟨r0, h1, h2⟩ := hm m hmm i hi
    exact ⟨{ r0 with count := 0 }, by simp [List.getElem?_map, h1], h2⟩

theorem arena_rewind_regions_length (l : List Region) : ∀ (i c : Nat),
    (arena_rewind_regions l i c).length = l.length := by
  induction l with
  | nil => intro i c; rfl
  | cons r rest ih =>
    intro i c
    cases i with
    | zero => simp [arena_rewind_regions]
    | succ k => simp [arena_rewind_regions, ih]

/-- What `arena_rewind` stores: capacities are kept, regions before the mark are
untouched, the marked region gets the count of the mark, later regions get 0. -/
theorem arena_rewind_regions_get (l : List Region) : ∀ (i c j : Nat) (x : Region),
    (arena_rewind_regions l i c)[j]? = some x →
      ∃ r, l[j]? = some r ∧ x.capacity = r.capacity ∧
        (j < i → x = r) ∧ (j = i → x.count = c) ∧ (i < j → x.count = 0) := by
  induction l with
  | nil => intro i c j x h; simp [arena_rewind_regions] at h
  | cons r rest ih =>
    intro i c j x h
    cases i with
    | zero =>
      cases j with
      | zero =>
        simp only [arena_rewind_regions, List.getElem?_cons_zero, Option.some.injEq] at h
        subst h
        exact ⟨r, by simp, rfl, by omega, fun _ => rfl, by omega⟩
      | succ k =>
        simp only [arena_rewind_regions, List.getElem?_cons_succ, List.getElem?_map,
          Option.map_eq_some'] at h
        obtain ⟨r0, h1, rfl⟩ := h
        exact ⟨r0, by simpa using h1, rfl, by omega, by omega, fun _ => rfl⟩
    | succ i2 =>
      cases j with
      | zero =>
        simp only [arena_rewind_regions, List.getElem?_cons_zero, Option.some.injEq] at h
        subst h
        exact ⟨r, by simp, rfl, fun _ => rfl, by omega, by omega⟩
      | succ k =>
        simp only [arena_rewind_regions, List.getElem?_cons_succ] at h
        obtain ⟨r0, h1, h2, h3, h4, h5⟩ := ih i2 c k x h
        exact ⟨r0, by simpa using h1, h2, fun hlt => h3 (by omega), fun he => h4 (by omega),
          fun hlt => h5 (by omega)⟩

theorem arena_rewind_inv (a : Arena) (ms : List Arena_Mark) (m : Arena_Mark) (a2 : Arena)
    (h : arena_rewind a m = some a2) (hmf : m.fits a)
    (hwf : a.wf) (hm : ∀ m ∈ ms, m.fits a) :
    a2.wf ∧ a2.tail_unused ∧ ∀ m ∈ ms, m.fits a2 := by
  unfold arena_rewind at h
  cases hr : m.region with
  | none =>
    simp only [hr, Option.some.injEq] at h
    subst h
    exact arena_reset_inv a ms hwf hm
  | some i =>
    simp only [hr] at h
    by_cases hi : i < a.regions.length
    · simp only [hi, if_true, Option.some.injEq] at h
      subst h
      obtain ⟨_, _, hw3⟩ := hwf
      obtain ⟨ri, hri, hci⟩ := hmf i hr
      refine ⟨⟨by simp, ?_, ?_⟩, ?_, ?_⟩
      · intro e he
        simp only [Option.some.injEq] at he
        subst he
        simpa [arena_rewind_regions_length] using hi
      · intro x hx
        obtain ⟨j, hj⟩ := List.getElem?_of_mem hx
        obtain ⟨r, h1, h2, h3, h4, h5⟩ := arena_rewind_regions_get _ _ _ _ _ hj
        have hrm := hw3 r (List.getElem?_mem h1)
        refine ⟨?_, by rw [h2]; exact hrm.2⟩
        rcases Nat.lt_trichotomy j i with hlt | heq | hgt
        · rw [h3 hlt]; exact hrm.1
        · subst heq
          rw [hri] at h1
          simp only [Option.some.injEq] at h1
          subst h1
          rw [h4 rfl, h2]; exact hci
        · rw [h5 hgt]; exact Nat.zero_le _
      · intro e he j x hj hx
        simp only [Option.some.injEq] at he
        subst he
        obtain ⟨_, _, _, _, _, h5⟩ := arena_rewind_regions_get _ _ _ _ _ hx
        exact h5 hj
      · intro m2 hm2 k hk
        obtain ⟨r0, h1, h2⟩ := hm m2 hm2 k hk
        have hlen : k < (arena_rewind_regions a.regions i m.count).length := by
          rw [arena_rewind_regions_length]; exact (List.getElem?_eq_some.1 h1).1
        obtain ⟨r, h3, h4, _⟩ := arena_rewind_regions_get _ _ _ _ _
          (List.getElem?_eq_getElem hlen)
        rw [h1] at h3
        simp only [Option.some.injEq] at h3
        subst h3
        exact ⟨_, List.getElem?_eq_getElem hlen, by rw [h4]; exact h2⟩
    · simp [hi] at h

theorem arena_snapshot_fits (a : Arena) (m : Arena_Mark) (h : arena_snapshot a = some m)
    (hwf : a.wf) : m.fits a := by
  unfold arena_snapshot at h
  cases hl : a.last with
  | none =>
    simp only [hl] at h
    by_cases hn : a.regions = []
    · simp only [hn, if_true, Option.some.injEq] at h
      subst h
      intro i hi
      simp at hi
    · simp [hn] at h
  | some e =>
    simp only [hl] at h
    cases hg : a.regions[e]? with
    | none => simp [hg] at h
    | some r =>
      simp only [hg, Option.some.injEq] at h
      subst h
      intro i hi
      simp only [Option.some.injEq] at hi
      subst hi
      exact ⟨r, hg, (hwf.2.2 r (List.getElem?_mem hg)).1⟩

/-- Every reachable arena is well formed, has no used region after `end`, and every
mark taken so far still fits it. -/
theorem arena_reach_inv (a : Arena) (ms : List Arena_Mark) (h : ArenaReach a ms) :
    a.wf ∧ a.tail_unused ∧ ∀ m ∈ ms, m.fits a := by
  induction h with
  | empty =>
    refine ⟨⟨fun _ => rfl, ?_, ?_⟩, ?_, ?_⟩
    · intro e he; simp [arena_empty] at he
    · intro r hr; simp [arena_empty] at hr
    · intro e he; simp [arena_empty] at he
    · intro m hm; simp at hm
  | alloc a ms n p a2 _ hal ih => exact arena_alloc_inv a ms n p a2 hal ih.1 ih.2.1 ih.2.2
  | snapshot a ms m _ hs ih =>
    refine ⟨ih.1, ih.2.1, ?_⟩
    intro m2 hm2
    rcases List.mem_cons.1 hm2 with e | e
    · subst e; exact arena_snapshot_fits a m2 hs ih.1
    · exact ih.2.2 m2 e
  | reset a ms _ ih => exact arena_reset_inv a ms ih.1 ih.2.2
  | rewind a ms m a2 _ hmem hrw ih =>
    exact arena_rewind_inv a ms m a2 hrw (ih.2.2 m hmem) ih.1 ih.2.2

theorem arena_rewind_regions_same (l : List Region) : ∀ (i : Nat) (r : Region),
    l[i]? = some r → (∀ j x, i < j → l[j]? = some x → x.count = 0) →
      arena_rewind_regions l i r.count = l := by
  induction l with
  | nil => intro i r h; simp at h
  | cons r0 rest ih =>
    intro i r h hz
    cases i with
    | zero =>
      simp only [List.getElem?_cons_zero, Option.some.injEq] at h
      subst h
      simp only [arena_rewind_regions, List.cons.injEq, true_and]
      apply List.ext_getElem?
      intro k
      simp only [List.getElem?_map]
      cases hk : rest[k]? with
      | none => rfl
      | some x =>
        have := hz (k + 1) x (by omega) (by simpa using hk)
        simp only [Option.map_some', Option.some.injEq]
        cases x
        simp only at this
        simp [this]
    | succ k =>
      simp only [List.getElem?_cons_succ] at h
      simp only [arena_rewind_regions, List.cons.injEq, true_and]
      apply ih k r h
      intro j x hj hx
      exact hz (j + 1) x (by omega) (by simpa using hx)

/-- C7: in every state reachable from the empty arena by `arena_alloc`, `arena_reset`
and `arena_rewind` to marks obtained from `arena_snapshot`, taking a snapshot and
rewinding to it at once leaves the arena unchanged: the same chain of regions with the
same counts and capacities, and the same `end`. -/
theorem arena_rewind_snapshot_noop (a : Arena) (ms : List Arena_Mark)
    (h : ArenaReach a ms) :
    ∃ m, arena_snapshot a = some m ∧ arena_rewind a m = some a := by
  obtain ⟨hwf, ht, _⟩ := arena_reach_inv a ms h
  obtain ⟨hw1, hw2, _⟩ := hwf
  cases hl : a.last with
  | none =>
    have hn := hw1 hl
    refine ⟨{ region := none, count := 0 }, by simp [arena_snapshot, hl, hn], ?_⟩
    obtain ⟨regions, last⟩ := a
    simp only at hl hn
    subst hl; subst hn
    simp [arena_rewind, arena_reset]
  | some e =>
    have hlen := hw2 e hl
    refine ⟨{ region := some e, count := a.regions[e].count }, ?_, ?_⟩
    · simp [arena_snapshot, hl, List.getElem?_eq_getElem hlen]
    · have hs := arena_rewind_regions_same a.regions e a.regions[e]
        (List.getElem?_eq_getElem hlen) (ht e hl)
      obtain ⟨regions, last⟩ := a
      simp only at hl hs hlen
      subst hl
      simp [arena_rewind, hlen, hs]


/-- C7 at the arena reached by allocating 100 bytes, taking a snapshot, allocating
70000 bytes and rewinding to the snapshot: its second region is unused. -/
theorem arena_rewind_snapshot_noop_witness :
    ∃ m, arena_snapshot arena_rewound = some m ∧
      arena_rewind arena_rewound m = some arena_rewound :=
  arena_rewind_snapshot_noop arena_rewound [⟨some 0, 13⟩]
    (ArenaReach.rewind ⟨[⟨13, 8192⟩, ⟨8750, 8750⟩], some 1⟩ [⟨some 0, 13⟩] ⟨some 0, 13⟩ _
      (ArenaReach.alloc ⟨[⟨13, 8192⟩], some 0⟩ [⟨some 0, 13⟩] 70000 ⟨.region 1, 0⟩ _
        (ArenaReach.snapshot ⟨[⟨13, 8192⟩], some 0⟩ [] ⟨some 0, 13⟩
          (ArenaReach.alloc arena_empty [] 100 ⟨.region 0, 0⟩ _ ArenaReach.empty (by decide))
          (by decide))
        (by decide))
      (by decide) (by decide))

/-! ### Arena: allocations that share a region -/

theorem arena_alloc_single (c n : Nat) (hn : n + WORD - 1 < SIZE_MOD)
    (hfit : c + words_for n ≤ REGION_DEFAULT_CAPACITY) :
    arena_alloc (arena_single c) n =
      some (⟨.region 0, WORD * c⟩, arena_single (c + words_for n)) := by
  have hmod : (n + WORD - 1) % SIZE_MOD = n + WORD - 1 := Nat.mod_eq_of_lt hn
  have hlt : c + words_for n < SIZE_MOD := by
    simp only [REGION_DEFAULT_CAPACITY, SIZE_MOD] at hfit ⊢; omega
  have hmod2 : (c + words_for n) % SIZE_MOD = c + words_for n := Nat.mod_eq_of_lt hlt
  have hnot : ¬ (c + words_for n) % SIZE_MOD > REGION_DEFAULT_CAPACITY := by
    rw [hmod2]; omega
  have hnot2 : ¬ c + (n + WORD - 1) / WORD > REGION_DEFAULT_CAPACITY := by
    unfold words_for at hfit; omega
  unfold arena_alloc
  simp only [arena_single, hmod, List.drop_zero, arena_alloc_skip, List.getElem?_cons_zero]
  unfold words_for at hnot hmod2
  simp only [hnot, if_false, hmod2, List.set_cons_zero, words_for]
  rw [if_neg hnot2]

theorem arena_alloc_empty (n : Nat) (hn : n + WORD - 1 < SIZE_MOD)
    (hfit : words_for n ≤ REGION_DEFAULT_CAPACITY) :
    arena_alloc arena_empty n = some (⟨.region 0, 0⟩, arena_single (words_for n)) := by
  have hmod : (n + WORD - 1) % SIZE_MOD = n + WORD - 1 := Nat.mod_eq_of_lt hn
  have hlt : words_for n < SIZE_MOD := by
    simp only [REGION_DEFAULT_CAPACITY, SIZE_MOD] at hfit ⊢; omega
  have hmod2 : (0 + words_for n) % SIZE_MOD = words_for n := by
    rw [Nat.zero_add]; exact Nat.mod_eq_of_lt hlt
  have hnot : ¬ (0 + words_for n) % SIZE_MOD > REGION_DEFAULT_CAPACITY := by
    rw [hmod2]; omega
  have hcap : region_capacity_for ((n + WORD - 1) / WORD) = REGION_DEFAULT_CAPACITY := by
    unfold region_capacity_for
    unfold words_for at hfit
    rw [if_neg (by omega)]
  have hb : REGION_HEADER + WORD * REGION_DEFAULT_CAPACITY < SIZE_MOD := by decide
  unfold arena_alloc
  unfold words_for at hnot hmod2
  have hnot2 : ¬ (n + WORD - 1) / WORD > REGION_DEFAULT_CAPACITY := by
    unfold words_for at hfit; omega
  simp only [arena_empty, hmod, if_true, new_region, hcap, hb, List.drop_zero,
    arena_alloc_skip, List.getElem?_cons_zero, hnot, if_false, hmod2, List.set_cons_zero,
    arena_single, words_for, Nat.mul_zero]
  rw [if_neg hnot2]

theorem words_for_bound (n : Nat) (h : words_for n ≤ REGION_DEFAULT_CAPACITY) :
    n + WORD - 1 < SIZE_MOD ∧ n ≤ WORD * words_for n := by
  unfold words_for at *
  simp only [WORD, REGION_DEFAULT_CAPACITY, SIZE_MOD] at *
  omega

theorem arena_alloc_seq_single (reqs : List Nat) : ∀ c : Nat,
    c + (reqs.map words_for).sum ≤ REGION_DEFAULT_CAPACITY →
    ∃ ptrs a, arena_alloc_seq (arena_single c) reqs = some (ptrs, a) ∧
      ptrs.length = reqs.length ∧
      (∀ pn ∈ ptrs.zip reqs, pn.1.block = .region 0 ∧ WORD * c ≤ pn.1.offset ∧
        pn.1.offset + pn.2 ≤ WORD * REGION_DEFAULT_CAPACITY) ∧
      (ptrs.zip reqs).Pairwise (fun x y => x.1.offset + x.2 ≤ y.1.offset) := by
  induction reqs with
  | nil => intro c _; exact ⟨[], _, rfl, rfl, by simp, by simp⟩
  | cons n ns ih =>
    intro c h
    simp only [List.map_cons, List.sum_cons] at h
    have hw : words_for n ≤ REGION_DEFAULT_CAPACITY := by omega
    obtain ⟨hn1, hn2⟩ := words_for_bound n hw
    obtain ⟨ptrs, a, h1, h2, h3, h4⟩ := ih (c + words_for n) (by omega)
    refine ⟨⟨.region 0, WORD * c⟩ :: ptrs, a, ?_, by simp [h2], ?_, ?_⟩
    · simp only [arena_alloc_seq, arena_alloc_single c n hn1 (by omega), h1]
    · intro pn hpn
      simp only [List.zip_cons_cons, List.mem_cons] at hpn
      rcases hpn with e | e
      · subst e
        refine ⟨rfl, le_refl _, ?_⟩
        simp only [WORD] at hn2 ⊢; omega
      · obtain ⟨e1, e2, e3⟩ := h3 pn e
        refine ⟨e1, ?_, e3⟩
        simp only [WORD] at e2 ⊢; omega
    · simp only [List.zip_cons_cons, List.pairwise_cons]
      refine ⟨?_, h4⟩
      intro pn hpn
      obtain ⟨_, e2, _⟩ := h3 pn hpn
      simp only [WORD] at e2 hn2 ⊢; omega

/-- C8 (the claim fails): requests of 1 and 65535 bytes total 65536 bytes, the size of a
region of default capacity, but the first takes a whole word, so the second (8192
words) does not fit behind it and is served from a second region. -/
theorem arena_alloc_seq_leaves_region :
    1 + 65535 ≤ WORD * REGION_DEFAULT_CAPACITY ∧
    arena_alloc_seq arena_empty [1, 65535] =
      some ([⟨.region 0, 0⟩, ⟨.region 1, 0⟩],
        { regions := [⟨1, 8192⟩, ⟨8192, 8192⟩], last := some 1 }) := by
  decide

/-- C8 (amended): for every sequence of `arena_alloc` requests on the empty arena whose
sizes, each rounded up to whole words, total at most `REGION_DEFAULT_CAPACITY` words,
every call succeeds, every returned range lies inside the first region, and the ranges
`[offset, offset + size)` of different calls are disjoint (an earlier one ends before a
later one starts). -/
theorem arena_alloc_seq_one_region (reqs : List Nat)
    (h : (reqs.map words_for).sum ≤ REGION_DEFAULT_CAPACITY) :
    ∃ ptrs a, arena_alloc_seq arena_empty reqs = some (ptrs, a) ∧
      ptrs.length = reqs.length ∧
      (∀ pn ∈ ptrs.zip reqs, pn.1.block = .region 0 ∧
        pn.1.offset + pn.2 ≤ WORD * REGION_DEFAULT_CAPACITY) ∧
      (ptrs.zip reqs).Pairwise (fun x y => x.1.offset + x.2 ≤ y.1.offset) := by
  cases reqs with
  | nil => exact ⟨[], _, rfl, rfl, by simp, by simp⟩
  | cons n ns =>
    simp only [List.map_cons, List.sum_cons] at h
    have hw : words_for n ≤ REGION_DEFAULT_CAPACITY := by omega
    obtain ⟨hn1, hn2⟩ := words_for_bound n hw
    obtain ⟨ptrs, a, h1, h2, h3, h4⟩ := arena_alloc_seq_single ns (words_for n) h
    refine ⟨⟨.region 0, 0⟩ :: ptrs, a, ?_, by simp [h2], ?_, ?_⟩
    · simp only [arena_alloc_seq, arena_alloc_empty n hn1 hw, h1]
    · intro pn hpn
      simp only [List.zip_cons_cons, List.mem_cons] at hpn
      rcases hpn with e | e
      · subst e
        refine ⟨rfl, ?_⟩
        simp only [WORD] at hn2 ⊢; omega
      · exact ⟨(h3 pn e).1, (h3 pn e).2.2⟩
    · simp only [List.zip_cons_cons, List.pairwise_cons]
      refine ⟨?_, h4⟩
      intro pn hpn
      obtain ⟨_, e2, _⟩ := h3 pn hpn
      simp only [WORD] at e2 hn2 ⊢; omega

/-- C8 (amended) at the requests of 1, 16 and 65000 bytes. -/
theorem arena_alloc_seq_one_region_witness :
    ∃ ptrs a, arena_alloc_seq arena_empty [1, 16, 65000] = some (ptrs, a) ∧
      ptrs.length = [1, 16, 65000].length ∧
      (∀ pn ∈ ptrs.zip [1, 16, 65000], pn.1.block = .region 0 ∧
        pn.1.offset + pn.2 ≤ WORD * REGION_DEFAULT_CAPACITY) ∧
      (ptrs.zip [1, 16, 65000]).Pairwise (fun x y => x.1.offset + x.2 ≤ y.1.offset) :=
  arena_alloc_seq_one_region [1, 16, 65000] (by decide)


/-! ### Arena: one allocation -/

theorem arena_alloc_total (a : Arena) (n : Nat) (hwf : a.wf)
    (hb : REGION_HEADER + WORD * region_capacity_for (((n + WORD - 1) % SIZE_MOD) / WORD)
      < SIZE_MOD) :
    ∃ p a2, arena_alloc a n = some (p, a2) := by
  have hsz := words_lt n
  unfold arena_alloc
  simp only
  generalize ((n + WORD - 1) % SIZE_MOD) / WORD = size at hsz hb ⊢
  obtain ⟨hw1, hw2, _⟩ := hwf
  cases hl : a.last with
  | none =>
    have hnil := hw1 hl
    have hm0 : size % SIZE_MOD = size := by
      apply Nat.mod_eq_of_lt; simp only [SIZE_MOD]; omega
    have hfit : ¬ size % SIZE_MOD > region_capacity_for size := by
      rw [hm0]; have := (region_capacity_for_ge size).1; omega
    simp only [hnil, if_true, new_region, hb, List.drop_zero, arena_alloc_skip,
      List.getElem?_cons_zero, Nat.zero_add, hfit, if_false]
    exact ⟨_, _, rfl⟩
  | some e0 =>
    simp only [hl]
    have he0 := hw2 e0 hl
    have hne : a.regions.drop e0 ≠ [] := by
      intro hd
      have := congrArg List.length hd
      simp at this
      omega
    obtain ⟨s1, s2, s3⟩ := arena_alloc_skip_spec size (a.regions.drop e0) e0 hne
    have hdrop : (a.regions.drop e0)[arena_alloc_skip size (a.regions.drop e0) e0 - e0]? =
        a.regions[arena_alloc_skip size (a.regions.drop e0) e0]? := by
      rw [List.getElem?_drop]; congr 1; omega
    rw [hdrop] at s3
    generalize arena_alloc_skip size (a.regions.drop e0) e0 = e at s1 s2 s3 ⊢
    have hlen : e < a.regions.length := by
      simp only [List.length_drop] at s2; omega
    have hget : a.regions[e]? = some a.regions[e] := List.getElem?_eq_getElem hlen
    rw [hget]
    simp only
    by_cases hfit : (a.regions[e].count + size) % SIZE_MOD > a.regions[e].capacity
    · have hlast : e + 1 = a.regions.length := by
        rcases s3 with ⟨r, hr, hr2⟩ | s3
        · rw [hget] at hr
          simp only [Option.some.injEq] at hr
          subst hr
          exact absurd hfit hr2
        · simp only [List.length_drop] at s3; omega
      simp only [hfit, if_true, hlast, new_region, hb]
      exact ⟨_, _, rfl⟩
    · simp only [hfit, if_false]
      exact ⟨_, _, rfl⟩

theorem region_capacity_for_eq_max (size : Nat) :
    region_capacity_for size = max REGION_DEFAULT_CAPACITY size := by
  unfold region_capacity_for
  split
  · rw [Nat.max_eq_right (by omega)]
  · rw [Nat.max_eq_left (by omega)]

theorem words_of_small (n : Nat) (hn : n + REGION_HEADER + WORD ≤ SIZE_MOD) :
    ((n + WORD - 1) % SIZE_MOD) / WORD = words_for n ∧
    REGION_HEADER + WORD * region_capacity_for (words_for n) < SIZE_MOD := by
  have h1 : (n + WORD - 1) % SIZE_MOD = n + WORD - 1 := by
    apply Nat.mod_eq_of_lt
    simp only [REGION_HEADER, WORD, SIZE_MOD] at hn ⊢; omega
  refine ⟨by rw [h1]; rfl, ?_⟩
  unfold region_capacity_for words_for
  simp only [REGION_HEADER, WORD, SIZE_MOD, REGION_DEFAULT_CAPACITY] at hn ⊢
  split <;> omega

/-- C10 (the claim fails): a request of `2^64 - 1` bytes on the empty arena succeeds
with a range in a region of 8192 words whose mark is not advanced at all, because the
rounding `size_bytes + sizeof(uintptr_t) - 1` wraps around to 6; the request needs
`2^61` words. -/
theorem arena_alloc_wraps_around :
    arena_alloc arena_empty (2 ^ 64 - 1) =
      some (⟨.region 0, 0⟩, { regions := [⟨0, 8192⟩], last := some 0 }) ∧
    ¬ ((2 ^ 64 - 1 + 7) / 8 ≤ 8192) := by
  decide

/-- C10 (amended): for every well-formed arena and every request of `n` bytes with
`n ≤ 2^64 - 32` (so that neither the rounding to words nor the byte size of a new
region wraps around), `arena_alloc` succeeds; the returned range starts at the old mark
of the region `end` now points to, that region has capacity at least `ceil(n / 8)`
words, its mark is advanced by exactly that many words and stays within the capacity;
the region is either one of the chain, otherwise unchanged, or a new one appended to
it, of capacity `max(REGION_DEFAULT_CAPACITY, ceil(n / 8))`. -/
theorem arena_alloc_region (a : Arena) (n : Nat) (hwf : a.wf)
    (hn : n + REGION_HEADER + WORD ≤ SIZE_MOD) :
    ∃ p a2, arena_alloc a n = some (p, a2) ∧
      ∃ e r2, a2.last = some e ∧ p.block = .region e ∧ a2.regions[e]? = some r2 ∧
        words_for n ≤ r2.capacity ∧
        p.offset + WORD * words_for n = WORD * r2.count ∧
        r2.count ≤ r2.capacity ∧
        ((∃ r, a.regions[e]? = some r ∧ p.offset = WORD * r.count ∧
            r2.capacity = r.capacity ∧ a2.regions = a.regions.set e r2) ∨
         (e = a.regions.length ∧ p.offset = 0 ∧ a2.regions = a.regions ++ [r2] ∧
            r2.capacity = max REGION_DEFAULT_CAPACITY (words_for n))) := by
  obtain ⟨hw, hb⟩ := words_of_small n hn
  obtain ⟨p, a2, h⟩ := arena_alloc_total a n hwf (by rw [hw]; exact hb)
  refine ⟨p, a2, h, ?_⟩
  rcases arena_alloc_cases a n p a2 h hwf with
    ⟨e0, e, r, _, _, hget, hfit, hp, ha2⟩ | ⟨_, hp, ha2⟩
  · rw [hw] at hfit ha2
    have hlen : e < a.regions.length := (List.getElem?_eq_some.1 hget).1
    subst hp; subst ha2
    refine ⟨e, { count := r.count + words_for n, capacity := r.capacity }, rfl, rfl,
      by simp [List.getElem?_set, hlen], by simp only; omega, by simp only [WORD]; omega,
      hfit, Or.inl ⟨r, hget, rfl, rfl, rfl⟩⟩
  · rw [hw] at ha2
    subst hp; subst ha2
    have hge := region_capacity_for_ge (words_for n)
    refine ⟨a.regions.length, ⟨words_for n, region_capacity_for (words_for n)⟩, rfl, rfl,
      by simp, hge.1, by simp, hge.1,
      Or.inr ⟨rfl, rfl, rfl, region_capacity_for_eq_max _⟩⟩

/-- C10 (amended) at a request of 70000 bytes on an arena whose only region holds 13
words: a region of 8750 words is appended. -/
theorem arena_alloc_region_witness :
    ∃ p a2, arena_alloc (arena_single 13) 70000 = some (p, a2) ∧
      ∃ e r2, a2.last = some e ∧ p.block = .region e ∧ a2.regions[e]? = some r2 ∧
        words_for 70000 ≤ r2.capacity ∧
        p.offset + WORD * words_for 70000 = WORD * r2.count ∧
        r2.count ≤ r2.capacity ∧
        ((∃ r, (arena_single 13).regions[e]? = some r ∧ p.offset = WORD * r.count ∧
            r2.capacity = r.capacity ∧ a2.regions = (arena_single 13).regions.set e r2) ∨
         (e = (arena_single 13).regions.length ∧ p.offset = 0 ∧
            a2.regions = (arena_single 13).regions ++ [r2] ∧
            r2.capacity = max REGION_DEFAULT_CAPACITY (words_for 70000))) :=
  arena_alloc_region (arena_single 13) 70000
    ⟨by decide, by decide, by decide⟩ (by decide)


/-! ### Arena: reallocation -/

/-- The copy loop, when the bytes read lie in another block than the bytes written or
entirely below them: the bytes written receive the old contents of the bytes read, and
nothing else changes. -/
theorem realloc_copy_spec (newptr oldptr : Ptr) : ∀ (n i : Nat) (mem : Mem),
    (oldptr.block ≠ newptr.block ∨ oldptr.offset + (i + n) ≤ newptr.offset) →
    ∀ b off, realloc_copy newptr oldptr n i mem b off =
      if b = newptr.block ∧ newptr.offset + i ≤ off ∧ off < newptr.offset + i + n then
        mem oldptr.block (oldptr.offset + (off - newptr.offset))
      else mem b off := by
  intro n
  induction n with
  | zero =>
    intro i mem _ b off
    simp only [realloc_copy]
    rw [if_neg (by omega)]
  | succ k ih =>
    intro i mem hd b off
    simp only [realloc_copy]
    rw [ih (i + 1) _ (by rcases hd with h | h; exact Or.inl h; exact Or.inr (by omega))]
    have hold : ∀ j, j < i + (k + 1) →
        (mem.store newptr i (mem.load oldptr i)) oldptr.block (oldptr.offset + j)
          = mem oldptr.block (oldptr.offset + j) := by
      intro j hj
      unfold Mem.store
      rw [if_neg]
      rintro ⟨h1, h2⟩
      rcases hd with h | h
      · exact h h1
      · omega
    by_cases hb : b = newptr.block
    · by_cases h1 : newptr.offset + (i + 1) ≤ off ∧ off < newptr.offset + (i + 1) + k
      · rw [if_pos ⟨hb, h1⟩, if_pos ⟨hb, by omega, by omega⟩]
        exact hold _ (by omega)
      · rw [if_neg (fun h => h1 h.2)]
        by_cases h2 : off = newptr.offset + i
        · rw [if_pos ⟨hb, by omega, by omega⟩]
          unfold Mem.store Mem.load
          rw [if_pos ⟨hb, h2⟩]
          congr 1; omega
        · rw [if_neg (by omega)]
          unfold Mem.store
          rw [if_neg (fun h => h2 h.2)]
    · rw [if_neg (fun h => hb h.1), if_neg (fun h => hb h.1)]
      unfold Mem.store
      rw [if_neg (fun h => hb h.1)]

/-- C9 (the claim fails): growing to `2^64 - 1` bytes returns storage in a region of
8192 words in which no word was reserved, since the rounding of the new size wraps
around; and with a pointer to the only allocated word of a region and an old size of
16 bytes, the new storage starts inside the old range, so the copy overwrites byte 8 of
the old range before reading it. -/
theorem arena_realloc_not_grow_or_keep :
    ((arena_realloc arena_empty mem_offsets ⟨.other 0, 0⟩ 0 (2 ^ 64 - 1)).map
        (fun r => (r.1, r.2.1))
      = some (⟨.region 0, 0⟩, { regions := [⟨0, 8192⟩], last := some 0 })) ∧
    WORD * 8192 < 2 ^ 64 - 1 ∧
    ((arena_realloc (arena_single 1) mem_offsets ⟨.region 0, 0⟩ 16 24).map
        (fun r => (r.1, r.2.2.load r.1 8, r.2.2.load ⟨.region 0, 0⟩ 8))
      = some (⟨.region 0, 8⟩, 0, 0)) ∧
    mem_offsets.load ⟨.region 0, 0⟩ 8 = 8 := by
  decide

/-- C9 (amended): `arena_realloc` with `newsz ≤ oldsz` returns the old pointer and
changes neither the arena nor the memory. With `oldsz < newsz ≤ 2^64 - 32`, on a
well-formed arena and for an old range that lies outside the arena or below the mark of
its region, it succeeds and returns storage of `newsz` bytes inside the region `end`
points to, starting at the previous mark of that region (so reserved by no earlier
call) and disjoint from the old range; its first `oldsz` bytes equal the bytes of the
old range before the call, and no byte outside them is modified, in particular none of
the old range. -/
theorem arena_realloc_grow_or_keep (a : Arena) (mem : Mem) (oldptr : Ptr)
    (oldsz newsz : Nat) :
    (newsz ≤ oldsz → arena_realloc a mem oldptr oldsz newsz = some (oldptr, a, mem)) ∧
    (oldsz < newsz → a.wf → newsz + REGION_HEADER + WORD ≤ SIZE_MOD →
      range_allocated a oldptr oldsz →
      ∃ newptr a2 mem2, arena_realloc a mem oldptr oldsz newsz = some (newptr, a2, mem2) ∧
        (∃ e r2, a2.last = some e ∧ newptr.block = .region e ∧
          a2.regions[e]? = some r2 ∧ newptr.offset + newsz ≤ WORD * r2.count ∧
          r2.count ≤ r2.capacity ∧
          (∀ r, a.regions[e]? = some r → WORD * r.count ≤ newptr.offset)) ∧
        (∀ i, i < oldsz → ∀ j, j < newsz →
          ¬ (oldptr.block = newptr.block ∧ oldptr.offset + i = newptr.offset + j)) ∧
        (∀ i, i < oldsz → mem2.load newptr i = mem.load oldptr i) ∧
        (∀ i, i < oldsz → mem2.load oldptr i = mem.load oldptr i) ∧
        (∀ b off, ¬ (b = newptr.block ∧ newptr.offset ≤ off ∧ off < newptr.offset + oldsz) →
          mem2 b off = mem b off)) := by
  constructor
  · intro h
    simp [arena_realloc, h]
  · intro hlt hwf hn hold
    obtain ⟨p, a2, hal, e, r2, h1, h2, h3, h4, h5, h6, h7⟩ := arena_alloc_region a newsz hwf hn
    have hnle : ¬ newsz ≤ oldsz := by omega
    have hwords : newsz ≤ WORD * words_for newsz := by
      unfold words_for; simp only [WORD]; omega
    -- the old range lies in another block or below the new storage
    have hsep : oldsz = 0 ∨ oldptr.block ≠ p.block ∨ oldptr.offset + oldsz ≤ p.offset := by
      rcases hold with h0 | hv
      · exact Or.inl h0
      · right
        cases hb : oldptr.block with
        | other id => left; rw [h2]; simp
        | region i =>
          rw [hb] at hv
          obtain ⟨r, hr, hro⟩ := hv
          by_cases hie : i = e
          · subst hie
            rcases h7 with ⟨r0, hr0, hp0, _, _⟩ | ⟨he, _, _, _⟩
            · rw [hr] at hr0
              simp only [Option.some.injEq] at hr0
              subst hr0
              right; omega
            · have hlen : i < a.regions.length := (List.getElem?_eq_some.1 hr).1
              omega
          · left; rw [h2]; simp [hie]
    have hcopy : ∀ b off, realloc_copy p oldptr oldsz 0 mem b off =
        if b = p.block ∧ p.offset + 0 ≤ off ∧ off < p.offset + 0 + oldsz then
          mem oldptr.block (oldptr.offset + (off - p.offset))
        else mem b off := by
      rcases hsep with h0 | hd
      · subst h0
        intro b off
        simp only [realloc_copy]
        rw [if_neg (by omega)]
      · exact realloc_copy_spec p oldptr oldsz 0 mem (by simpa using hd)
    refine ⟨p, a2, realloc_copy p oldptr oldsz 0 mem, ?_, ?_, ?_, ?_, ?_, ?_⟩
    · simp [arena_realloc, hnle, hal]
    · refine ⟨e, r2, h1, h2, h3, by omega, h6, ?_⟩
      intro r hr
      rcases h7 with ⟨r0, hr0, hp0, _, _⟩ | ⟨he, _, _, _⟩
      · rw [hr] at hr0
        simp only [Option.some.injEq] at hr0
        subst hr0
        omega
      · have hlen : e < a.regions.length := (List.getElem?_eq_some.1 hr).1
        omega
    · intro i hi j _ hcon
      rcases hsep with h0 | hd | hd
      · omega
      · exact hd hcon.1
      · omega
    · intro i hi
      unfold Mem.load
      rw [hcopy, if_pos ⟨rfl, by omega, by omega⟩]
      congr 1; omega
    · intro i hi
      unfold Mem.load
      rw [hcopy, if_neg]
      rintro ⟨hb, hlo, _⟩
      rcases hsep with h0 | hd | hd
      · omega
      · exact hd hb
      · omega
    · intro b off hout
      rw [hcopy, if_neg]
      rintro ⟨hb, hlo, hhi⟩
      exact hout ⟨hb, by omega, by omega⟩

/-- C9 (amended) at an arena whose region holds two words, growing the 16 bytes at its
start to 24 bytes. -/
theorem arena_realloc_grow_or_keep_witness :
    ∃ newptr a2 mem2,
      arena_realloc (arena_single 2) mem_offsets ⟨.region 0, 0⟩ 16 24
        = some (newptr, a2, mem2) ∧
      (∃ e r2, a2.last = some e ∧ newptr.block = .region e ∧
        a2.regions[e]? = some r2 ∧ newptr.offset + 24 ≤ WORD * r2.count ∧
        r2.count ≤ r2.capacity ∧
        (∀ r, (arena_single 2).regions[e]? = some r → WORD * r.count ≤ newptr.offset)) ∧
      (∀ i, i < 16 → ∀ j, j < 24 →
        ¬ ((⟨.region 0, 0⟩ : Ptr).block = newptr.block ∧
            (⟨.region 0, 0⟩ : Ptr).offset + i = newptr.offset + j)) ∧
      (∀ i, i < 16 → mem2.load newptr i = mem_offsets.load ⟨.region 0, 0⟩ i) ∧
      (∀ i, i < 16 → mem2.load ⟨.region 0, 0⟩ i = mem_offsets.load ⟨.region 0, 0⟩ i) ∧
      (∀ b off, ¬ (b = newptr.block ∧ newptr.offset ≤ off ∧ off < newptr.offset + 16) →
        mem2 b off = mem_offsets b off) :=
  (arena_realloc_grow_or_keep (arena_single 2) mem_offsets ⟨.region 0, 0⟩ 16 24).2
    (by decide) ⟨by decide, by decide, by decide⟩ (by decide)
    (Or.inr ⟨⟨2, REGION_DEFAULT_CAPACITY⟩, rfl, by decide⟩)


/-! ### Transport: framing -/

theorem uint32_roundtrip (big_endian : Bool) (v : Nat) (hv : v < 2 ^ 32)
    (rest : List Nat) :
    uint32_of_bytes big_endian (uint32_bytes big_endian v ++ rest) = v := by
  cases big_endian <;>
    simp [uint32_of_bytes, uint32_bytes] <;> omega

theorem recv_header_chunks (chunks : List (List Nat)) : ∀ (data : List Nat)
    (rest : List RecvResult),
    (∀ c ∈ chunks, c ≠ []) → (data ++ chunks.flatten).length = IPC_HEADER_SIZE →
    recv_header (chunks.map RecvResult.bytes ++ rest) data
      = .ok (data ++ chunks.flatten, rest) := by
  induction chunks with
  | nil =>
    intro data rest _ hlen
    simp only [List.flatten_nil, List.append_nil] at hlen
    cases rest with
    | nil => simp [recv_header, hlen]
    | cons r rest => simp [recv_header, hlen]
  | cons c cs ih =>
    intro data rest hne hlen
    have hc : c ≠ [] := hne c (by simp)
    have hcl : 0 < c.length := List.length_pos.2 hc
    simp only [List.flatten_cons, List.length_append] at hlen
    have hlt : data.length < IPC_HEADER_SIZE := by omega
    have htake : c.take (IPC_HEADER_SIZE - data.length) = c := by
      apply List.take_of_length_le; omega
    have hstep : recv_header (RecvResult.bytes c :: (cs.map RecvResult.bytes ++ rest)) data
        = recv_header (cs.map RecvResult.bytes ++ rest) (data ++ c) := by
      rw [recv_header]
      simp only [hlt, if_true, htake]
      rw [if_neg (by omega)]
    rw [List.map_cons, List.cons_append, hstep,
      ih (data ++ c) rest (fun x hx => hne x (by simp [hx]))
        (by simp only [List.length_append]; omega)]
    simp

theorem recv_payload_chunks (size : Nat) (chunks : List (List Nat)) : ∀ (payload : List Nat)
    (rest : List RecvResult),
    (∀ c ∈ chunks, c ≠ []) → (payload ++ chunks.flatten).length = size →
    ∃ rest2, recv_payload size (chunks.map RecvResult.bytes ++ rest) payload
      = .ok (payload ++ chunks.flatten, rest2) := by
  induction chunks with
  | nil =>
    intro payload rest _ hlen
    simp only [List.flatten_nil, List.append_nil] at hlen
    cases rest with
    | nil => exact ⟨[], by simp [recv_payload, hlen]⟩
    | cons r rest => exact ⟨r :: rest, by simp [recv_payload, hlen]⟩
  | cons c cs ih =>
    intro payload rest hne hlen
    have hc : c ≠ [] := hne c (by simp)
    have hcl : 0 < c.length := List.length_pos.2 hc
    simp only [List.flatten_cons, List.length_append] at hlen
    have hlt : payload.length < size := by omega
    have htake : c.take (size - payload.length) = c := by
      apply List.take_of_length_le; omega
    have hstep : recv_payload size (RecvResult.bytes c :: (cs.map RecvResult.bytes ++ rest))
        payload = recv_payload size (cs.map RecvResult.bytes ++ rest) (payload ++ c) := by
      rw [recv_payload]
      simp only [hlt, if_true, htake]
    obtain ⟨rest2, h⟩ := ih (payload ++ c) rest (fun x hx => hne x (by simp [hx]))
      (by simp only [List.length_append]; omega)
    exact ⟨rest2, by rw [List.map_cons, List.cons_append, hstep, h]; simp⟩


theorem ipc_header_fields (big_endian : Bool) (t n : Nat) (ht : t < 2 ^ 32)
    (hn : n < 2 ^ 32) :
    ipc_recv_response_fields big_endian (ipc_single_command_header big_endian t n) = (n, t) := by
  have h1 : (ipc_single_command_header big_endian t n).drop 6 =
      uint32_bytes big_endian n ++ uint32_bytes big_endian t := by
    simp [ipc_single_command_header, ipc_magic]
  have h2 : (ipc_single_command_header big_endian t n).drop (6 + 4) =
      uint32_bytes big_endian t ++ [] := by
    cases big_endian <;> simp [ipc_single_command_header, ipc_magic, uint32_bytes]
  unfold ipc_recv_response_fields
  rw [h1, h2, uint32_roundtrip big_endian n hn, uint32_roundtrip big_endian t ht]

/-- C11: for every 32-bit type `t` and payload length `n`, the header built by
`ipc_single_command` has 14 bytes and starts with the magic, and the header parsing of
`ipc_recv_response` decodes it back to size `n` and type `t`; when the peer echoes the
frame, in whatever non-empty pieces the header and the payload arrive,
`ipc_recv_response` returns a response with that size, type and payload. -/
theorem ipc_header_round_trip (big_endian : Bool) (t n : Nat) (ht : t < 2 ^ 32)
    (hn : n < 2 ^ 32) :
    (ipc_single_command_header big_endian t n).length = IPC_HEADER_SIZE ∧
    (ipc_single_command_header big_endian t n).take 6 = ipc_magic ∧
    ipc_recv_response_fields big_endian (ipc_single_command_header big_endian t n) = (n, t) ∧
    (∀ (hchunks pchunks : List (List Nat)) (rest : List RecvResult),
      (∀ c ∈ hchunks, c ≠ []) →
      hchunks.flatten = ipc_single_command_header big_endian t n →
      (∀ c ∈ pchunks, c ≠ []) → pchunks.flatten.length = n → n + 1 < 2 ^ 32 →
      ipc_recv_response big_endian true true
          (hchunks.map RecvResult.bytes ++ (pchunks.map RecvResult.bytes ++ rest))
        = .response n t pchunks.flatten) := by
  have hlen : (ipc_single_command_header big_endian t n).length = IPC_HEADER_SIZE := by
    cases big_endian <;> simp [ipc_single_command_header, ipc_magic, uint32_bytes,
      IPC_HEADER_SIZE]
  refine ⟨hlen, by simp [ipc_single_command_header, ipc_magic],
    ipc_header_fields big_endian t n ht hn, ?_⟩
  intro hchunks pchunks rest hh1 hh2 hp1 hp2 hn1
  have hhdr := recv_header_chunks hchunks [] (pchunks.map RecvResult.bytes ++ rest) hh1
    (by simp only [List.nil_append]; rw [hh2]; exact hlen)
  obtain ⟨rest2, hpay⟩ := recv_payload_chunks n pchunks [] rest hp1
    (by simp only [List.nil_append]; exact hp2)
  simp only [List.nil_append] at hhdr hpay
  unfold ipc_recv_response
  rw [hhdr]
  simp only [if_true, hh2, ipc_header_fields big_endian t n ht hn]
  rw [if_neg (by rw [Nat.mod_eq_of_lt hn1]; omega), hpay]

/-- C11 at type 4 (`IPC_GET_TREE`) and a payload of two bytes on a little-endian host. -/
theorem ipc_header_round_trip_witness :
    (ipc_single_command_header false 4 2).length = IPC_HEADER_SIZE ∧
    (ipc_single_command_header false 4 2).take 6 = ipc_magic ∧
    ipc_recv_response_fields false (ipc_single_command_header false 4 2) = (2, 4) ∧
    (∀ (hchunks pchunks : List (List Nat)) (rest : List RecvResult),
      (∀ c ∈ hchunks, c ≠ []) →
      hchunks.flatten = ipc_single_command_header false 4 2 →
      (∀ c ∈ pchunks, c ≠ []) → pchunks.flatten.length = 2 → 2 + 1 < 2 ^ 32 →
      ipc_recv_response false true true
          (hchunks.map RecvResult.bytes ++ (pchunks.map RecvResult.bytes ++ rest))
        = .response 2 4 pchunks.flatten) :=
  ipc_header_round_trip false 4 2 (by decide) (by decide)

/-! ### Transport: receiving -/

theorem recv_payload_zero_reads (size : Nat) (k : Nat) : ∀ payload : List Nat,
    payload.length < size →
    recv_payload size (List.replicate k (RecvResult.bytes [])) payload = .error .blocked := by
  induction k with
  | zero => intro payload h; simp [recv_payload, h]
  | succ k ih =>
    intro payload h
    rw [List.replicate_succ, recv_payload]
    simp only [h, if_true, List.take_nil, List.append_nil]
    exact ih payload h

/-- C12 (evaluation at the failing input): after a complete header that announces two
payload bytes, however many times `recv` returns 0 (the peer has disconnected),
`ipc_recv_response` neither dies nor returns: it calls `recv` again each time; if the
two bytes arrive after a 0-byte `recv` it returns the response. A `recv` that returns
0 in the header makes it die. -/
theorem ipc_recv_response_continues_after_zero_read :
    (∀ k, ipc_recv_response false true true
      (.bytes (ipc_single_command_header false 4 2) :: List.replicate k (.bytes []))
        = .blocked) ∧
    ipc_recv_response false true true recvs_zero_in_payload = .response 2 4 [65, 66] ∧
    ipc_recv_response false true true recvs_zero_in_header = .died := by
  refine ⟨?_, by decide, by decide⟩
  intro k
  have hh : recv_header
      (.bytes (ipc_single_command_header false 4 2) :: List.replicate k (.bytes [])) []
      = .ok (ipc_single_command_header false 4 2, List.replicate k (.bytes [])) := by
    have := recv_header_chunks [ipc_single_command_header false 4 2] []
      (List.replicate k (.bytes [])) (by decide) (by decide)
    simpa using this
  have hf : ipc_recv_response_fields false (ipc_single_command_header false 4 2) = (2, 4) := by
    decide
  unfold ipc_recv_response
  rw [hh]
  simp only [if_true, hf]
  rw [if_neg (by decide), recv_payload_zero_reads 2 k [] (by decide)]

/-! ### Harvester: the parent id field -/

/-- C13 (evaluation at the failing input): for the status buffer of a process whose
name is `PPid:` and whose parent is 5, `parse_ppid` passes its assertions and returns 0,
because `strstr` finds the name before the field line; for the same buffer with the
name `sh` it returns 5. -/
theorem parse_ppid_reads_name_line :
    parse_ppid status_named_ppid = some 0 ∧
    strstr status_named_ppid (Char.ofNat 10 :: "PPid:\t5\n".toList) ≠ none ∧
    parse_ppid status_named_sh = some 5 := by
  decide


/-! ### Harvester: no pid twice -/

theorem mem_lookup_support (m : PidMap) (p c : pid_t) (h : c ∈ g_hash_table_lookup m p) :
    p ∈ m.map Prod.fst ∧ c ∈ (m.map Prod.snd).flatten := by
  induction m with
  | nil => simp [g_hash_table_lookup] at h
  | cons e rest ih =>
    obtain ⟨k, v⟩ := e
    by_cases hk : k = p
    · subst hk
      simp only [g_hash_table_lookup, if_true] at h
      simp [h]
    · simp only [g_hash_table_lookup, hk, if_false] at h
      obtain ⟨h1, h2⟩ := ih h
      simp only [List.map_cons, List.mem_cons, List.flatten_cons, List.mem_append]
      exact ⟨Or.inr h1, Or.inr h2⟩

/-- Acyclic child links of a map make its child relation well founded. -/
theorem wellFounded_isChild (m : PidMap) (h : child_links_acyclic m) :
    WellFounded (fun c p => IsChild m p c) := by
  haveI : IsStrictOrder pid_t (Relation.TransGen (Function.swap (IsChild m))) :=
    { irrefl := fun p hp => h p (Relation.transGen_swap.1 hp)
      trans := fun _ _ _ h1 h2 => h1.trans h2 }
  have hwf := Finset.wellFoundedOn (r := Relation.TransGen (Function.swap (IsChild m)))
    ((m.map Prod.fst ++ (m.map Prod.snd).flatten).toFinset)
  rw [Set.wellFoundedOn_iff] at hwf
  refine Subrelation.wf ?_ hwf
  intro c p hcp
  obtain ⟨h1, h2⟩ := mem_lookup_support m p c hcp
  refine ⟨Relation.TransGen.single hcp, ?_, ?_⟩
  · simp only [Finset.mem_coe, List.mem_toFinset, List.mem_append]
    exact Or.inr h2
  · simp only [Finset.mem_coe, List.mem_toFinset, List.mem_append]
    exact Or.inl h1

theorem cost_of_acyclic_map (m : PidMap) (h : child_links_acyclic m) (p : pid_t) :
    ∃ a, Cost m (g_hash_table_lookup m p) a := by
  induction p using (wellFounded_isChild m h).induction with
  | _ p ih =>
    apply cost_of_forall
    intro c hc
    exact ih c hc

/-- On a map whose child lists are disjoint and whose links are acyclic, the traversal
never meets a pid again: a state whose result and queue hold no pid twice, and only the
root and children of pids already in the result, ends with a result without
repetition. -/
theorem bfs_nodup (m : PidMap) (root : pid_t) (h1 : child_lists_disjoint m)
    (h2 : child_links_acyclic m) (fuel : Nat) :
    ∀ (rq result r : List pid_t), (result ++ rq).Nodup →
      (∀ x ∈ result ++ rq, x = root ∨ ∃ q ∈ result, IsChild m q x) →
      (∀ x ∈ result ++ rq, Descendant m root x) →
      bfs m fuel rq result = some r → r.Nodup := by
  induction fuel with
  | zero =>
    intro rq result r ha _ _ h
    by_cases hq : rq = []
    · simp only [bfs, hq, if_true, Option.some.injEq] at h
      subst h; subst hq; simpa using ha
    · simp [bfs, hq] at h
  | succ k ih =>
    intro rq result r ha hb hc h
    cases rq with
    | nil =>
      simp only [bfs, Option.some.injEq] at h
      subst h; simpa using ha
    | cons p rest =>
      simp only [bfs] at h
      have hp_mem : p ∈ result ++ p :: rest := by simp
      have hp_desc := hc p hp_mem
      have hp_notin : p ∉ result := by
        intro hpr
        have := List.nodup_append.1 ha
        exact this.2.2 hpr (by simp)
      have e : (result ++ [p]) ++ (rest ++ g_hash_table_lookup m p) =
          (result ++ p :: rest) ++ g_hash_table_lookup m p := by simp
      apply ih (rest ++ g_hash_table_lookup m p) (result ++ [p]) r
      · rw [e]
        refine List.nodup_append.2 ⟨ha, h1.1 p, ?_⟩
        intro c hc1 hc2
        rcases hb c hc1 with hroot | ⟨q, hq, hqc⟩
        · subst hroot
          exact h2 c (Relation.TransGen.tail' hp_desc hc2)
        · have := h1.2 q p c hqc hc2
          subst this
          exact hp_notin hq
      · intro x hx
        rw [e] at hx
        rcases List.mem_append.1 hx with hx1 | hx1
        · rcases hb x hx1 with hroot | ⟨q, hq, hqx⟩
          · exact Or.inl hroot
          · exact Or.inr ⟨q, by simp [hq], hqx⟩
        · exact Or.inr ⟨p, by simp, hx1⟩
      · intro x hx
        rw [e] at hx
        rcases List.mem_append.1 hx with hx1 | hx1
        · exact hc x hx1
        · exact Relation.ReflTransGen.tail hp_desc hx1
      · exact h

theorem isChild_pidmap_with_zero (p c : pid_t) (h : IsChild pidmap_with_zero p c) :
    p = 1 ∧ c ≠ 1 := by
  unfold IsChild pidmap_with_zero at h
  by_cases hp : (1 : pid_t) = p
  · subst hp
    simp only [g_hash_table_lookup, if_true, List.mem_cons, List.mem_singleton,
      List.not_mem_nil, or_false] at h
    refine ⟨rfl, ?_⟩
    rcases h with h | h <;> subst h <;> decide
  · simp [g_hash_table_lookup, hp] at h

theorem transGen_pidmap_with_zero (a b : pid_t)
    (h : Relation.TransGen (IsChild pidmap_with_zero) a b) : a = 1 ∧ b ≠ 1 := by
  induction h with
  | single h1 => exact isChild_pidmap_with_zero _ _ h1
  | tail _ h1 ih => exact absurd (isChild_pidmap_with_zero _ _ h1).1 ih.2

/-- C14 (the claim fails): in the map in which pid 1 has the children 0 and 2, every
pid occurs in at most one child list, once, and the links are acyclic; the traversal
from 1 returns 1, 0, 2 without repetition, but `kill_all` stops walking the returned
array at the entry 0, so the descendant 2 is sent no signal. -/
theorem kill_all_stops_at_pid_zero :
    child_lists_disjoint pidmap_with_zero ∧ child_links_acyclic pidmap_with_zero ∧
    get_pid_children 3 (some pidmap_with_zero) 1 = some (some [1, 0, 2]) ∧
    Descendant pidmap_with_zero 1 2 ∧
    (kill_all (fun _ => some [1, 0, 2]) machine_app_running 1 SIGSTOP).2.kills
      = [(1, SIGSTOP)] := by
  refine ⟨⟨?_, ?_⟩, ?_, by decide, ?_, by decide⟩
  · intro p
    unfold pidmap_with_zero
    by_cases hp : (1 : pid_t) = p
    · simp [g_hash_table_lookup, hp]
    · simp [g_hash_table_lookup, hp]
  · intro p1 p2 c hc1 hc2
    rw [(isChild_pidmap_with_zero _ _ hc1).1, (isChild_pidmap_with_zero _ _ hc2).1]
  · intro p hp
    have := transGen_pidmap_with_zero p p hp
    exact this.2 this.1
  · apply Relation.ReflTransGen.single
    show (2 : pid_t) ∈ g_hash_table_lookup pidmap_with_zero 1
    decide

/-- C14 (amended): for every adjacency map in which each pid occurs in at most one child
list and at most once, and in which child links are acyclic, the traversal of
`get_pid_children` terminates (from some fuel on it returns) and its result holds
exactly the root and its descendants, none of them twice; when moreover pid 0 is not
among them, `kill_all` on that result sends the signal exactly once to each of them and
to nothing else (its `kill` calls are without repetition and go to exactly these
pids). -/
theorem get_pid_children_no_duplicates (m : PidMap) (root : pid_t)
    (h1 : child_lists_disjoint m) (h2 : child_links_acyclic m) :
    ∃ N, ∀ fuel, N ≤ fuel → ∃ r,
      get_pid_children fuel (some m) root = some (some r) ∧ r.Nodup ∧
      (∀ x, x ∈ r ↔ Descendant m root x) ∧
      ((∀ x, Descendant m root x → x ≠ 0) →
        ∀ (harvest : pid_t → Option (List pid_t)) (M : Machine) (signum : Int),
          harvest root = some r →
          ∃ sent, kill_all harvest M root signum = (true, { M with kills := M.kills ++ sent }) ∧
            sent.Nodup ∧
            (∀ k, k ∈ sent ↔ (k.2 = signum ∧ Descendant m root k.1))) := by
  obtain ⟨a, ha⟩ := cost_of_acyclic_map m h2 root
  have hc : Cost m [root] (a + 0 + 1) := Cost.cons root [] a 0 ha Cost.nil
  refine ⟨a + 0 + 1, fun fuel hf => ?_⟩
  obtain ⟨r, hr⟩ := bfs_terminates m fuel [root] [] _ hc hf
  have hspec := bfs_root_spec m fuel root r hr
  have hnd : r.Nodup := by
    apply bfs_nodup m root h1 h2 fuel [root] [] r _ _ _ hr
    · simp
    · intro x hx; simp only [List.nil_append, List.mem_singleton] at hx; exact Or.inl hx
    · intro x hx
      simp only [List.nil_append, List.mem_singleton] at hx
      subst hx; exact Relation.ReflTransGen.refl
  refine ⟨r, by simp [get_pid_children, get_pid_children_eq_bfs, hr], hnd, hspec, ?_⟩
  intro h0 harvest M signum hh
  have htw : r.takeWhile (fun p => !decide (p = 0)) = r := by
    rw [List.takeWhile_eq_self_iff]
    intro x hx
    simpa using h0 x ((hspec x).1 hx)
  refine ⟨r.map (fun p => (p, signum)), ?_, ?_, ?_⟩
  · rw [kill_all_eq]
    simp [sent_by, hh, htw]
  · exact hnd.map (fun p q hpq => by simpa using hpq)
  · intro k
    constructor
    · intro hk
      obtain ⟨x, hx, rfl⟩ := List.mem_map.1 hk
      exact ⟨rfl, (hspec x).1 hx⟩
    · rintro ⟨hk1, hk2⟩
      obtain ⟨k1, k2⟩ := k
      simp only at hk1 hk2
      subst hk1
      exact List.mem_map.2 ⟨k1, (hspec k1).2 hk2, rfl⟩


theorem single_entry_shape (k : pid_t) (cs : List pid_t) (hk : k ∉ cs) (hn : cs.Nodup) :
    child_lists_disjoint [(k, cs)] ∧ child_links_acyclic [(k, cs)] := by
  have hchild : ∀ p c, IsChild [(k, cs)] p c → p = k ∧ c ≠ k := by
    intro p c h
    unfold IsChild at h
    by_cases hp : k = p
    · subst hp
      simp only [g_hash_table_lookup, if_true] at h
      exact ⟨rfl, fun e => hk (e ▸ h)⟩
    · simp [g_hash_table_lookup, hp] at h
  have htrans : ∀ a b, Relation.TransGen (IsChild [(k, cs)]) a b → a = k ∧ b ≠ k := by
    intro a b h
    induction h with
    | single h1 => exact hchild _ _ h1
    | tail _ h1 ih => exact absurd (hchild _ _ h1).1 ih.2
  refine ⟨⟨?_, ?_⟩, ?_⟩
  · intro p
    by_cases hp : k = p
    · simp [g_hash_table_lookup, hp, hn]
    · simp [g_hash_table_lookup, hp]
  · intro p1 p2 c hc1 hc2
    rw [(hchild _ _ hc1).1, (hchild _ _ hc2).1]
  · intro p hp
    exact (htrans p p hp).2 (htrans p p hp).1

/-- C14 (amended) at the map in which pid 1 has the children 2 and 3, from the root 1. -/
theorem get_pid_children_no_duplicates_witness :
    ∃ N, ∀ fuel, N ≤ fuel → ∃ r,
      get_pid_children fuel (some pidmap_small) 1 = some (some r) ∧ r.Nodup ∧
      (∀ x, x ∈ r ↔ Descendant pidmap_small 1 x) ∧
      ((∀ x, Descendant pidmap_small 1 x → x ≠ 0) →
        ∀ (harvest : pid_t → Option (List pid_t)) (M : Machine) (signum : Int),
          harvest 1 = some r →
          ∃ sent, kill_all harvest M 1 signum = (true, { M with kills := M.kills ++ sent }) ∧
            sent.Nodup ∧
            (∀ k, k ∈ sent ↔ (k.2 = signum ∧ Descendant pidmap_small 1 k.1))) :=
  get_pid_children_no_duplicates pidmap_small 1
    (single_entry_shape 1 [2, 3] (by decide) (by decide)).1
    (single_entry_shape 1 [2, 3] (by decide) (by decide)).2

/-! ### Arena: the invariant -/

theorem arena_rewind_regions_capacity (l : List Region) : ∀ (i c : Nat),
    (arena_rewind_regions l i c).map Region.capacity = l.map Region.capacity := by
  induction l with
  | nil => intro i c; rfl
  | cons r rest ih =>
    intro i c
    cases i with
    | zero => simp [arena_rewind_regions, List.map_map, Function.comp_def]
    | succ k => simp [arena_rewind_regions, ih]

theorem arena_rewind_capacity (a : Arena) (m : Arena_Mark) (a2 : Arena)
    (h : arena_rewind a m = some a2) :
    a2.regions.map Region.capacity = a.regions.map Region.capacity := by
  unfold arena_rewind at h
  cases hr : m.region with
  | none =>
    simp only [hr, Option.some.injEq] at h
    subst h
    simp [arena_reset, List.map_map, Function.comp_def]
  | some i =>
    simp only [hr] at h
    by_cases hi : i < a.regions.length
    · simp only [hi, if_true, Option.some.injEq] at h
      subst h
      exact arena_rewind_regions_capacity _ _ _
    · simp [hi] at h

/-- The loop of `arena_alloc` passes only regions into which the request does not fit. -/
theorem arena_alloc_skip_first (size : Nat) : ∀ (l : List Region) (e j : Nat) (r : Region),
    e ≤ j → j < arena_alloc_skip size l e → l[j - e]? = some r →
    (r.count + size) % SIZE_MOD > r.capacity := by
  intro l
  induction l with
  | nil => intro e j r h1 h2 _; simp only [arena_alloc_skip] at h2; omega
  | cons r0 rest ih =>
    intro e j r h1 h2 h3
    cases rest with
    | nil => simp only [arena_alloc_skip] at h2; omega
    | cons r2 rest2 =>
      by_cases hfit : (r0.count + size) % SIZE_MOD > r0.capacity
      · simp only [arena_alloc_skip, hfit, if_true] at h2
        by_cases hje : j = e
        · subst hje
          simp only [Nat.sub_self, List.getElem?_cons_zero, Option.some.injEq] at h3
          subst h3; exact hfit
        · have e1 : j - e = (j - (e + 1)) + 1 := by omega
          rw [e1, List.getElem?_cons_succ] at h3
          exact ih (e + 1) j r (by omega) h2 h3
      · simp only [arena_alloc_skip, hfit, if_false] at h2
        omega

theorem map_capacity_set (l : List Region) (e : Nat) (r : Region) (c : Nat)
    (h : l[e]? = some r) :
    (l.set e { r with count := c }).map Region.capacity = l.map Region.capacity := by
  apply List.ext_getElem?
  intro k
  simp only [List.getElem?_map, List.getElem?_set]
  by_cases hk : e = k
  · subst hk
    have hlen : e < l.length := (List.getElem?_eq_some.1 h).1
    simp [hlen, h]
  · simp [hk]

/-- When the request fits into a region at or after `end`, `arena_alloc` serves it from
the chain as it is. -/
theorem arena_alloc_reuse (a : Arena) (n e0 j : Nat) (r : Region) (hwf : a.wf)
    (hl : a.last = some e0) (hj : e0 ≤ j) (hget : a.regions[j]? = some r)
    (hfit : r.count + ((n + WORD - 1) % SIZE_MOD) / WORD ≤ r.capacity) :
    ∃ p a2, arena_alloc a n = some (p, a2) ∧
      a2.regions.map Region.capacity = a.regions.map Region.capacity := by
  have hsz := words_lt n
  unfold arena_alloc
  simp only
  generalize ((n + WORD - 1) % SIZE_MOD) / WORD = size at hsz hfit ⊢
  obtain ⟨_, hw2, hw3⟩ := hwf
  have hnofit : ∀ x, x ∈ a.regions → x.count + size ≤ x.capacity →
      ¬ (x.count + size) % SIZE_MOD > x.capacity := by
    intro x _ hx
    have := Nat.mod_le (x.count + size) SIZE_MOD
    omega
  simp only [hl]
  have he0 := hw2 e0 hl
  have hjlen : j < a.regions.length := (List.getElem?_eq_some.1 hget).1
  have hne : a.regions.drop e0 ≠ [] := by
    intro hd
    have := congrArg List.length hd
    simp at this
    omega
  obtain ⟨s1, s2, s3⟩ := arena_alloc_skip_spec size (a.regions.drop e0) e0 hne
  have sfirst := arena_alloc_skip_first size (a.regions.drop e0) e0 j r hj
  have hdrop : (a.regions.drop e0)[arena_alloc_skip size (a.regions.drop e0) e0 - e0]? =
      a.regions[arena_alloc_skip size (a.regions.drop e0) e0]? := by
    rw [List.getElem?_drop]; congr 1; omega
  have hdropj : (a.regions.drop e0)[j - e0]? = a.regions[j]? := by
    rw [List.getElem?_drop]; congr 1; omega
  rw [hdrop] at s3
  rw [hdropj, hget] at sfirst
  generalize arena_alloc_skip size (a.regions.drop e0) e0 = e at s1 s2 s3 sfirst ⊢
  have hlen : e < a.regions.length := by
    simp only [List.length_drop] at s2; omega
  have hgete : a.regions[e]? = some a.regions[e] := List.getElem?_eq_getElem hlen
  have hrfit := hnofit r (List.getElem?_mem hget) hfit
  have hfit_e : ¬ (a.regions[e].count + size) % SIZE_MOD > a.regions[e].capacity := by
    intro hbad
    by_cases hlt : j < e
    · exact hrfit (sfirst hlt rfl)
    · rcases s3 with ⟨x, hx, hx2⟩ | s3
      · rw [hgete] at hx
        simp only [Option.some.injEq] at hx
        subst hx
        exact hx2 hbad
      · simp only [List.length_drop] at s3
        have hje : j = e := by omega
        subst hje
        rw [hgete] at hget
        simp only [Option.some.injEq] at hget
        subst hget
        exact hrfit hbad
  rw [hgete]
  simp only [hfit_e, if_false]
  exact ⟨_, _, rfl, map_capacity_set _ _ _ _ hgete⟩

theorem arena_rewound_reach : ArenaReach arena_rewound [⟨some 0, 13⟩] :=
  ArenaReach.rewind ⟨[⟨13, 8192⟩, ⟨8750, 8750⟩], some 1⟩ [⟨some 0, 13⟩] ⟨some 0, 13⟩ _
    (ArenaReach.alloc ⟨[⟨13, 8192⟩], some 0⟩ [⟨some 0, 13⟩] 70000 ⟨.region 1, 0⟩ _
      (ArenaReach.snapshot ⟨[⟨13, 8192⟩], some 0⟩ [] ⟨some 0, 13⟩
        (ArenaReach.alloc arena_empty [] 100 ⟨.region 0, 0⟩ _ ArenaReach.empty (by decide))
        (by decide))
      (by decide))
    (by decide) (by decide)

/-- C15: in every state reachable from the empty arena by `arena_alloc`, `arena_reset`
and `arena_rewind` to marks returned by `arena_snapshot`: (i) every region's mark is at
most its capacity; (ii) every region after `end` has mark 0; (iii) `arena_reset` and
`arena_rewind` (which succeeds for every mark taken so far) keep the number of regions
and every capacity, and a later `arena_alloc` whose request fits into a region at or
after `end` is served from the chain as it is, without a new region. -/
theorem arena_invariant (a : Arena) (ms : List Arena_Mark) (h : ArenaReach a ms) :
    (∀ r ∈ a.regions, r.count ≤ r.capacity) ∧
    (∀ e, a.last = some e → ∀ j r, e < j → a.regions[j]? = some r → r.count = 0) ∧
    (arena_reset a).regions.map Region.capacity = a.regions.map Region.capacity ∧
    (∀ m ∈ ms, ∃ a2, arena_rewind a m = some a2) ∧
    (∀ m a2, arena_rewind a m = some a2 →
      a2.regions.map Region.capacity = a.regions.map Region.capacity) ∧
    (∀ n e0 j r, a.last = some e0 → e0 ≤ j → a.regions[j]? = some r →
      n + WORD - 1 < SIZE_MOD → r.count + words_for n ≤ r.capacity →
      ∃ p a2, arena_alloc a n = some (p, a2) ∧
        a2.regions.map Region.capacity = a.regions.map Region.capacity) := by
  obtain ⟨hwf, ht, hm⟩ := arena_reach_inv a ms h
  refine ⟨fun r hr => (hwf.2.2 r hr).1, ht, ?_, ?_, arena_rewind_capacity a, ?_⟩
  · simp [arena_reset, List.map_map, Function.comp_def]
  · intro m hmm
    unfold arena_rewind
    cases hr : m.region with
    | none => exact ⟨_, rfl⟩
    | some i =>
      obtain ⟨r, hget, _⟩ := hm m hmm i hr
      have hlen : i < a.regions.length := (List.getElem?_eq_some.1 hget).1
      simp only [hlen, if_true]
      exact ⟨_, rfl⟩
  · intro n e0 j r hl hj hget hn hfit
    apply arena_alloc_reuse a n e0 j r hwf hl hj hget
    rw [Nat.mod_eq_of_lt hn]
    exact hfit

/-- C15 at the arena reached by allocating 100 bytes, taking a snapshot, allocating
70000 bytes and rewinding to the snapshot. -/
theorem arena_invariant_witness :
    (∀ r ∈ arena_rewound.regions, r.count ≤ r.capacity) ∧
    (∀ e, arena_rewound.last = some e → ∀ j r, e < j → arena_rewound.regions[j]? = some r →
      r.count = 0) ∧
    (arena_reset arena_rewound).regions.map Region.capacity
      = arena_rewound.regions.map Region.capacity ∧
    (∀ m ∈ [(⟨some 0, 13⟩ : Arena_Mark)], ∃ a2, arena_rewind arena_rewound m = some a2) ∧
    (∀ m a2, arena_rewind arena_rewound m = some a2 →
      a2.regions.map Region.capacity = arena_rewound.regions.map Region.capacity) ∧
    (∀ n e0 j r, arena_rewound.last = some e0 → e0 ≤ j →
      arena_rewound.regions[j]? = some r →
      n + WORD - 1 < SIZE_MOD → r.count + words_for n ≤ r.capacity →
      ∃ p a2, arena_alloc arena_rewound n = some (p, a2) ∧
        a2.regions.map Region.capacity = arena_rewound.regions.map Region.capacity) :=
  arena_invariant arena_rewound [⟨some 0, 13⟩] arena_rewound_reach

end SwayFreezer
